import Mathlib

/-!
Verification of the quiqr-scaffold-block content-block scaffolder
(`src/scaffold.ts`).

The development shallowly embeds the tool's pure core: the derived block
names, the dynamics-registry record (`DynamicsData`), the three-format
codec (`parseDynamicsFile` / `stringifyDynamicsData`), the registry merge
step of `updateDynamicsFile`, the file-type auto-detection
(`detectFileType`), and the generated file paths and contents.

The `yaml`, `smol-toml` and `JSON` serializers the script calls are npm
dependencies whose sources are not part of this repository; they are
modelled here (see the doc comments marked `Modelled from the spec:`)
restricted to the document shapes the tool reads and writes, with the
standard escaping behaviour of each format.  Everything else is a direct
translation of `src/scaffold.ts`.
-/

namespace Scaffold

/-- The three supported registry formats (`'yaml' | 'toml' | 'json'` in the
source). -/
inductive FileType where
  | yaml
  | toml
  | json
deriving DecidableEq, Repr

/-- The extension string of a format. -/
def FileType.ext : FileType → String
  | .yaml => "yaml"
  | .toml => "toml"
  | .json => "json"

/-- One dynamics-registry record, the `DynamicsData` interface of the
source: `key`, `_mergePartial`, `content_type`, all strings. -/
structure DynamicsData where
  key : String
  mergePartial : String
  content_type : String
deriving DecidableEq, Repr

/-- Untyped JavaScript-like values, used for the runtime results of the
format decoders (the source's type annotations notwithstanding, the
decoders can return arbitrary structured values, e.g. the `toml` branch's
`(tomlData as any).dynamics`). -/
inductive JsVal where
  | str (s : String)
  | boolean (b : Bool)
  | arr (xs : List JsVal)
  | obj (fields : List (String × JsVal))

/-- The object value of a `DynamicsData` record, with the source's field
names and insertion order. -/
def DynamicsData.toJsVal (d : DynamicsData) : JsVal :=
  .obj [("key", .str d.key), ("_mergePartial", .str d.mergePartial),
        ("content_type", .str d.content_type)]

/-- JavaScript property access `entry.key` on a parsed value: the value of
the first `key` field of an object, absent otherwise. -/
def jsKey : JsVal → Option JsVal
  | .obj fields => fields.lookup "key"
  | _ => none

/-- JavaScript truthiness of a parsed value (`v || []` in the source's
`toml` branch): empty strings and `false` are falsy; arrays and objects
are always truthy. -/
def jsTruthy : JsVal → Bool
  | .str s => s ≠ ""
  | .boolean b => b
  | .arr _ => true
  | .obj _ => true

/-- `Array.isArray`. -/
def JsVal.isArr : JsVal → Bool
  | .arr _ => true
  | _ => false

/-- The ECMAScript whitespace and line-terminator set recognised by
`String.prototype.trim`. -/
def jsWhitespace (c : Char) : Bool :=
  let n := c.toNat
  n = 0x20 || n = 0x09 || n = 0x0a || n = 0x0d || n = 0x0b || n = 0x0c ||
  n = 0xa0 || n = 0x1680 || (0x2000 <= n && n <= 0x200a) ||
  n = 0x2028 || n = 0x2029 || n = 0x202f || n = 0x205f ||
  n = 0x3000 || n = 0xfeff

/-- `!content.trim()`: true exactly when every character is JavaScript
whitespace (so the trimmed string is empty). -/
def trimIsEmpty (s : String) : Bool :=
  s.data.all jsWhitespace

/-- The identifier check `^[a-zA-Z_][a-zA-Z0-9_]*$` applied to the block
name by `main`. -/
def isValidIdentifier (s : String) : Bool :=
  match s.data with
  | [] => false
  | c :: cs => (c.isAlpha || c = '_') && cs.all (fun d => d.isAlphanum || d = '_')

/-- `blockName.replace(/_/g, '')` — the block name with every underscore
removed (`blockNameWithoutUnderscores` in the constructor). -/
def blockNameWithoutUnderscores (s : String) : String :=
  ⟨s.data.filter (fun c => c ≠ '_')⟩

/-- `blockName.replace(/_/g, '-')` — the block name with underscores
replaced by dashes (`blockNameWithDashes` in the constructor). -/
def blockNameWithDashes (s : String) : String :=
  ⟨s.data.map (fun c => if c = '_' then '-' else c)⟩

/-- The new registry record built by `updateDynamicsFile` (lines 170-174):
`key = "dynbx" + blockNameWithoutUnderscores`, `_mergePartial = blockName`,
`content_type = blockName`. -/
def newDynamicsData (blockName : String) : DynamicsData :=
  { key := "dynbx" ++ blockNameWithoutUnderscores blockName
    mergePartial := blockName
    content_type := blockName }

/-- `detectFileType` (lines 42-57): probe for existing registry files —
`dynamics.toml`, then `dynamics.json`, then `dynamics.yaml` — under
`quiqr/model/includes`, defaulting to `yaml`.  The filesystem is abstracted
as the existence predicate `ex` over paths. -/
def detectFileType (ex : String → Bool) : FileType :=
  if ex "quiqr/model/includes/dynamics.toml" then .toml
  else if ex "quiqr/model/includes/dynamics.json" then .json
  else if ex "quiqr/model/includes/dynamics.yaml" then .yaml
  else .yaml

/-- A lowercase hexadecimal digit character. -/
def hexDigit (n : Nat) : Char :=
  if n < 10 then Char.ofNat (48 + n) else Char.ofNat (87 + n)

/-- The numeric value of a hexadecimal digit character, if any. -/
def hexVal (c : Char) : Option Nat :=
  let n := c.toNat
  if 48 ≤ n ∧ n ≤ 57 then some (n - 48)
  else if 97 ≤ n ∧ n ≤ 102 then some (n - 87)
  else if 65 ≤ n ∧ n ≤ 70 then some (n - 55)
  else none

/-- Modelled from the spec: the double-quoted-string escaping used by the
standard encoders of the npm dependencies (`JSON.stringify`, `smol-toml`,
`yaml`), which are not part of this repository.  Quote and backslash are
backslash-escaped, control characters become a `\u00XX` escape, every
other character is emitted unchanged. -/
def escChar (c : Char) : List Char :=
  if c = '"' then ['\\', '"']
  else if c = '\\' then ['\\', '\\']
  else if c.toNat < 32 then
    ['\\', 'u', hexDigit (c.toNat / 4096 % 16), hexDigit (c.toNat / 256 % 16),
     hexDigit (c.toNat / 16 % 16), hexDigit (c.toNat % 16)]
  else [c]

/-- Escape every character of a string body. -/
def escStr : List Char → List Char
  | [] => []
  | c :: cs => escChar c ++ escStr cs

/-- A double-quoted string literal: `"`, escaped body, `"`. -/
def quoteStr (s : String) : List Char :=
  '"' :: (escStr s.data ++ ['"'])

/-- Decode one escape sequence (the input starts just after a backslash):
quote, backslash, or a `\uXXXX` code unit. -/
def escStep (cs : List Char) : Option (Char × List Char) :=
  match cs with
  | '"' :: r => some ('"', r)
  | '\\' :: r => some ('\\', r)
  | 'u' :: a :: b :: d :: e :: r =>
    match hexVal a, hexVal b, hexVal d, hexVal e with
    | some x, some y, some z, some w =>
      some (Char.ofNat (4096 * x + 256 * y + 16 * z + w), r)
    | _, _, _, _ => none
  | _ => none

/-- Modelled from the spec: scanning a double-quoted string body (the
input starts just after the opening quote); returns the unescaped body and
the input remaining after the closing quote.  Raw control characters are
rejected, as the standard JSON/TOML string grammars require.  `fuel`
bounds the recursion depth; callers pass at least the input length plus
one, which is always sufficient. -/
def scanQuotedF : Nat → List Char → Option (List Char × List Char)
  | 0, _ => none
  | _ + 1, [] => none
  | fuel + 1, c :: cs =>
    if c = '"' then some ([], cs)
    else if c = '\\' then
      match escStep cs with
      | some (d, r) => (scanQuotedF fuel r).map (fun p => (d :: p.1, p.2))
      | none => none
    else if c.toNat < 32 then none
    else (scanQuotedF fuel cs).map (fun p => (c :: p.1, p.2))

theorem hexVal_hexDigit (k : Nat) (h : k < 16) : hexVal (hexDigit k) = some k := by
  interval_cases k <;> decide

theorem escStep_escChar (c : Char) (hc : c.toNat < 32) (rest : List Char) :
    escStep ('u' :: hexDigit (c.toNat / 4096 % 16) :: hexDigit (c.toNat / 256 % 16) ::
      hexDigit (c.toNat / 16 % 16) :: hexDigit (c.toNat % 16) :: rest) = some (c, rest) := by
  rw [escStep]
  rw [hexVal_hexDigit _ (by omega), hexVal_hexDigit _ (by omega),
    hexVal_hexDigit _ (by omega), hexVal_hexDigit _ (by omega)]
  have hv : 4096 * (c.toNat / 4096 % 16) + 256 * (c.toNat / 256 % 16) +
      16 * (c.toNat / 16 % 16) + c.toNat % 16 = c.toNat := by omega
  simp only [hv, Char.ofNat_toNat]

theorem scanQuotedF_escStr (s : List Char) : ∀ (fuel : Nat) (rest : List Char),
    s.length + 1 ≤ fuel → scanQuotedF fuel (escStr s ++ '"' :: rest) = some (s, rest) := by
  induction s with
  | nil =>
    intro fuel rest hf
    match fuel, hf with
    | fuel + 1, _ => rw [escStr]; simp [scanQuotedF]
  | cons c cs ih =>
    intro fuel rest hf
    match fuel, hf with
    | fuel + 1, hf =>
      have hfc : cs.length + 1 ≤ fuel := by simpa using hf
      by_cases hq : c = '"'
      · subst hq
        rw [escStr, escChar]
        simp only [if_pos rfl, List.cons_append, List.append_assoc, List.nil_append]
        rw [scanQuotedF.eq_def]
        simp [escStep, ih fuel rest hfc]
      by_cases hb : c = '\\'
      · subst hb
        rw [escStr, escChar]
        simp only [if_neg (by decide : ¬('\\' : Char) = '"'), if_pos rfl,
          List.cons_append, List.append_assoc, List.nil_append]
        rw [scanQuotedF.eq_def]
        simp [escStep, ih fuel rest hfc]
      by_cases hc : c.toNat < 32
      · rw [escStr, escChar]
        simp only [if_neg hq, if_neg hb, if_pos hc, List.cons_append, List.append_assoc,
          List.nil_append]
        rw [scanQuotedF]
        simp only [if_neg (by decide : ¬('\\' : Char) = '"'), if_pos rfl]
        rw [escStep_escChar c hc]
        simp [ih fuel rest hfc]
      · rw [escStr, escChar]
        simp only [if_neg hq, if_neg hb, if_neg hc, List.cons_append, List.nil_append]
        rw [scanQuotedF]
        rw [if_neg hq, if_neg hb, if_neg hc]
        simp [ih fuel rest hfc]

theorem length_le_escStr (s : List Char) : s.length ≤ (escStr s).length := by
  induction s with
  | nil => simp [escStr]
  | cons c cs ih =>
    have h1 : 1 ≤ (escChar c).length := by
      unfold escChar
      split
      · simp
      · split
        · simp
        · split <;> simp
    simp only [escStr, List.length_append, List.length_cons]
    omega

/-- The whitespace the JSON grammar allows between tokens. -/
def jsonWs (c : Char) : Bool :=
  c = ' ' || c = '\t' || c = '\n' || c = '\r'

/-- Skip JSON inter-token whitespace. -/
def skipWs (cs : List Char) : List Char :=
  cs.dropWhile jsonWs

mutual

/-- Modelled from the spec: `JSON.stringify(v, null, 2)` of the npm
runtime, which is not part of this repository — the standard 2-space
pretty-printing of a structured value at indentation `ind`. -/
def jsonSer (ind : Nat) : JsVal → List Char
  | .str s => quoteStr s
  | .boolean true => ['t', 'r', 'u', 'e']
  | .boolean false => ['f', 'a', 'l', 's', 'e']
  | .arr [] => ['[', ']']
  | .arr (x :: xs) =>
    '[' :: '\n' :: (List.replicate (ind + 2) ' ' ++ (jsonSer (ind + 2) x ++
      (jsonSerElems (ind + 2) xs ++ ('\n' :: (List.replicate ind ' ' ++ [']'])))))
  | .obj [] => ['\x7b', '\x7d']
  | .obj (f :: fs) =>
    '\x7b' :: '\n' :: (List.replicate (ind + 2) ' ' ++ (jsonSerField (ind + 2) f ++
      (jsonSerFields (ind + 2) fs ++ ('\n' :: (List.replicate ind ' ' ++ ['\x7d'])))))

/-- One `"key": value` member of a pretty-printed JSON object. -/
def jsonSerField (ind : Nat) : String × JsVal → List Char
  | (k, v) => quoteStr k ++ (':' :: ' ' :: jsonSer ind v)

/-- The `,\n<indent>element` continuation of a pretty-printed JSON array. -/
def jsonSerElems (ind : Nat) : List JsVal → List Char
  | [] => []
  | x :: xs =>
    ',' :: '\n' :: (List.replicate ind ' ' ++ (jsonSer ind x ++ jsonSerElems ind xs))

/-- The `,\n<indent>member` continuation of a pretty-printed JSON object. -/
def jsonSerFields (ind : Nat) : List (String × JsVal) → List Char
  | [] => []
  | f :: fs =>
    ',' :: '\n' :: (List.replicate ind ' ' ++ (jsonSerField ind f ++ jsonSerFields ind fs))

end

mutual

/-- Modelled from the spec: `JSON.parse` of the npm runtime (not part of
this repository), restricted to the value forms the tool's registry and
content files use: strings, booleans, arrays and objects.  `fuel` bounds
the recursion; the top-level entry passes the input length plus one. -/
def jsonPVal : Nat → List Char → Option (JsVal × List Char)
  | 0, _ => none
  | fuel + 1, cs =>
    match skipWs cs with
    | '"' :: r => (scanQuotedF (r.length + 1) r).map (fun p => (JsVal.str ⟨p.1⟩, p.2))
    | '[' :: r =>
      match skipWs r with
      | ']' :: r2 => some (.arr [], r2)
      | _ => (jsonPElems fuel r).map (fun p => (JsVal.arr p.1, p.2))
    | '\x7b' :: r =>
      match skipWs r with
      | '\x7d' :: r2 => some (.obj [], r2)
      | _ => (jsonPFields fuel r).map (fun p => (JsVal.obj p.1, p.2))
    | 't' :: 'r' :: 'u' :: 'e' :: r => some (.boolean true, r)
    | 'f' :: 'a' :: 'l' :: 's' :: 'e' :: r => some (.boolean false, r)
    | _ => none

/-- Parse the comma-separated elements of a nonempty JSON array up to and
including the closing bracket. -/
def jsonPElems : Nat → List Char → Option (List JsVal × List Char)
  | 0, _ => none
  | fuel + 1, cs =>
    match jsonPVal fuel cs with
    | some (v, r) =>
      match skipWs r with
      | ',' :: r2 => (jsonPElems fuel r2).map (fun p => (v :: p.1, p.2))
      | ']' :: r2 => some ([v], r2)
      | _ => none
    | none => none

/-- Parse the comma-separated members of a nonempty JSON object up to and
including the closing brace. -/
def jsonPFields : Nat → List Char → Option (List (String × JsVal) × List Char)
  | 0, _ => none
  | fuel + 1, cs =>
    match skipWs cs with
    | '"' :: r =>
      match scanQuotedF (r.length + 1) r with
      | some (k, r1) =>
        match skipWs r1 with
        | ':' :: r2 =>
          match jsonPVal fuel r2 with
          | some (v, r3) =>
            match skipWs r3 with
            | ',' :: r4 => (jsonPFields fuel r4).map (fun p => ((⟨k⟩, v) :: p.1, p.2))
            | '\x7d' :: r4 => some ([(⟨k⟩, v)], r4)
            | _ => none
          | none => none
        | _ => none
      | none => none
    | _ => none

end

/-- Modelled from the spec: `JSON.parse(content)` — parse one value and
require only trailing whitespace after it. -/
def jsonParse (s : String) : Option JsVal :=
  match jsonPVal (s.data.length + 1) s.data with
  | some (v, r) => if skipWs r = [] then some v else none
  | none => none

theorem skipWs_cons_ws {c : Char} (h : jsonWs c = true) (cs : List Char) :
    skipWs (c :: cs) = skipWs cs := by
  simp [skipWs, List.dropWhile_cons_of_pos, h]

theorem skipWs_cons_nonws {c : Char} (h : jsonWs c = false) (cs : List Char) :
    skipWs (c :: cs) = c :: cs := by
  simp [skipWs, List.dropWhile_cons_of_neg, h]

theorem skipWs_replicate (n : Nat) (cs : List Char) :
    skipWs (List.replicate n ' ' ++ cs) = skipWs cs := by
  induction n with
  | zero => simp
  | succ k ih => simpa [List.replicate_succ, skipWs_cons_ws (by decide : jsonWs ' ' = true)] using ih

theorem jsonPVal_congr (fuel : Nat) {cs cs' : List Char} (h : skipWs cs = skipWs cs') :
    jsonPVal fuel cs = jsonPVal fuel cs' := by
  cases fuel with
  | zero => rfl
  | succ g => rw [jsonPVal, jsonPVal, h]

theorem jsonPFields_congr (fuel : Nat) {cs cs' : List Char} (h : skipWs cs = skipWs cs') :
    jsonPFields fuel cs = jsonPFields fuel cs' := by
  cases fuel with
  | zero => rfl
  | succ g => rw [jsonPFields, jsonPFields, h]

theorem jsonPElems_congr (fuel : Nat) {cs cs' : List Char} (h : skipWs cs = skipWs cs') :
    jsonPElems fuel cs = jsonPElems fuel cs' := by
  cases fuel with
  | zero => rfl
  | succ g => rw [jsonPElems, jsonPElems, jsonPVal_congr g h]

theorem scanQuotedF_quote (b : List Char) (rest : List Char) :
    scanQuotedF ((escStr b ++ '"' :: rest).length + 1) (escStr b ++ '"' :: rest) =
      some (b, rest) := by
  apply scanQuotedF_escStr
  have := length_le_escStr b
  simp only [List.length_append, List.length_cons]
  omega

theorem jsonPVal_str (s : String) (fuel : Nat) (rest : List Char) (hf : 1 ≤ fuel) :
    jsonPVal fuel (quoteStr s ++ rest) = some (.str s, rest) := by
  obtain ⟨g, rfl⟩ : ∃ g, fuel = g + 1 := ⟨fuel - 1, by omega⟩
  rw [jsonPVal]
  have he : quoteStr s ++ rest = '"' :: (escStr s.data ++ '"' :: rest) := by
    simp [quoteStr]
  rw [he, skipWs_cons_nonws (by decide)]
  simp only [Option.map_eq_some']
  refine ⟨(s.data, rest), ?_, rfl⟩
  apply scanQuotedF_escStr
  have := length_le_escStr s.data
  simp only [List.length_append, List.length_cons]
  omega

theorem jsonPFields_ser (fs : List (String × JsVal)) :
    ∀ (k v : String) (fuel ind m : Nat) (rest : List Char),
    (∀ g ∈ fs, ∃ w, g.2 = JsVal.str w) →
    2 * fs.length + 2 ≤ fuel →
    jsonPFields fuel (jsonSerField ind (k, .str v) ++ (jsonSerFields ind fs ++
      ('\n' :: (List.replicate m ' ' ++ '\x7d' :: rest)))) = some ((k, .str v) :: fs, rest) := by
  induction fs with
  | nil =>
    intro k v fuel ind m rest _ hf
    obtain ⟨f, rfl⟩ : ∃ f, fuel = f + 2 := ⟨fuel - 2, by omega⟩
    rw [jsonPFields]
    have he : jsonSerField ind (k, .str v) ++ (jsonSerFields ind [] ++
        ('\n' :: (List.replicate m ' ' ++ '\x7d' :: rest))) =
        '"' :: (escStr k.data ++ '"' :: (':' :: ' ' :: (quoteStr v ++
          ('\n' :: (List.replicate m ' ' ++ '\x7d' :: rest))))) := by
      simp [jsonSerField, jsonSer, jsonSerFields, quoteStr]
    rw [he, skipWs_cons_nonws (by decide)]
    simp only []
    rw [scanQuotedF_quote]
    simp only []
    rw [skipWs_cons_nonws (by decide)]
    simp only []
    have hv : jsonPVal (f + 1) (' ' :: (quoteStr v ++
        ('\n' :: (List.replicate m ' ' ++ '\x7d' :: rest)))) =
        some (.str v, '\n' :: (List.replicate m ' ' ++ '\x7d' :: rest)) := by
      rw [jsonPVal_congr (f + 1) (skipWs_cons_ws (by decide) _)]
      exact jsonPVal_str v (f + 1) _ (by omega)
    rw [hv]
    simp only []
    rw [skipWs_cons_ws (by decide), skipWs_replicate, skipWs_cons_nonws (by decide)]
    simp only []
  | cons hd tl ih =>
    intro k v fuel ind m rest hflat hf
    obtain ⟨f, rfl⟩ : ∃ f, fuel = f + 2 := ⟨fuel - 2, by omega⟩
    obtain ⟨hk, hv2⟩ := hd
    obtain ⟨w, hw⟩ := hflat (hk, hv2) (by simp)
    simp only at hw
    subst hw
    rw [jsonPFields]
    have he : jsonSerField ind (k, .str v) ++ (jsonSerFields ind ((hk, JsVal.str w) :: tl) ++
        ('\n' :: (List.replicate m ' ' ++ '\x7d' :: rest))) =
        '"' :: (escStr k.data ++ '"' :: (':' :: ' ' :: (quoteStr v ++
          (',' :: '\n' :: (List.replicate ind ' ' ++ (jsonSerField ind (hk, JsVal.str w) ++
            (jsonSerFields ind tl ++
              ('\n' :: (List.replicate m ' ' ++ '\x7d' :: rest)))))))))  := by
      simp [jsonSerField, jsonSer, jsonSerFields, quoteStr]
    rw [he, skipWs_cons_nonws (by decide)]
    simp only []
    rw [scanQuotedF_quote]
    simp only []
    rw [skipWs_cons_nonws (by decide)]
    simp only []
    have hv : jsonPVal (f + 1) (' ' :: (quoteStr v ++
        (',' :: '\n' :: (List.replicate ind ' ' ++ (jsonSerField ind (hk, JsVal.str w) ++
          (jsonSerFields ind tl ++ ('\n' :: (List.replicate m ' ' ++ '\x7d' :: rest)))))))) =
        some (.str v, ',' :: '\n' :: (List.replicate ind ' ' ++
          (jsonSerField ind (hk, JsVal.str w) ++ (jsonSerFields ind tl ++
            ('\n' :: (List.replicate m ' ' ++ '\x7d' :: rest)))))) := by
      rw [jsonPVal_congr (f + 1) (skipWs_cons_ws (by decide) _)]
      exact jsonPVal_str v (f + 1) _ (by omega)
    rw [hv]
    simp only []
    rw [skipWs_cons_nonws (by decide)]
    simp only []
    have hrec : jsonPFields (f + 1) ('\n' :: (List.replicate ind ' ' ++
        (jsonSerField ind (hk, JsVal.str w) ++ (jsonSerFields ind tl ++
          ('\n' :: (List.replicate m ' ' ++ '\x7d' :: rest)))))) =
        some ((hk, JsVal.str w) :: tl, rest) := by
      have hcongr : skipWs ('\n' :: (List.replicate ind ' ' ++
          (jsonSerField ind (hk, JsVal.str w) ++ (jsonSerFields ind tl ++
            ('\n' :: (List.replicate m ' ' ++ '\x7d' :: rest)))))) =
          skipWs (jsonSerField ind (hk, JsVal.str w) ++ (jsonSerFields ind tl ++
            ('\n' :: (List.replicate m ' ' ++ '\x7d' :: rest)))) := by
        rw [skipWs_cons_ws (by decide), skipWs_replicate]
      rw [jsonPFields_congr (f + 1) hcongr]
      exact ih hk w (f + 1) ind m rest (fun g hg => hflat g (by simp [hg])) (by simp at hf ⊢; omega)
    rw [hrec]
    rfl

theorem serField_append (ind : Nat) (k : String) (w : JsVal) (X : List Char) :
    jsonSerField ind (k, w) ++ X =
      '"' :: (escStr k.data ++ ('"' :: (':' :: ' ' :: (jsonSer ind w ++ X)))) := by
  simp [jsonSerField, quoteStr]

theorem jsonPVal_serRecord (d : DynamicsData) (fuel ind : Nat) (rest : List Char)
    (hf : 7 ≤ fuel) :
    jsonPVal fuel (jsonSer ind d.toJsVal ++ rest) = some (d.toJsVal, rest) := by
  obtain ⟨f, rfl⟩ : ∃ f, fuel = f + 1 := ⟨fuel - 1, by omega⟩
  rw [jsonPVal]
  have he : jsonSer ind d.toJsVal ++ rest =
      '\x7b' :: ('\n' :: (List.replicate (ind + 2) ' ' ++
        (jsonSerField (ind + 2) ("key", .str d.key) ++
          (jsonSerFields (ind + 2) [("_mergePartial", .str d.mergePartial),
            ("content_type", .str d.content_type)] ++
            ('\n' :: (List.replicate ind ' ' ++ '\x7d' :: rest)))))) := by
    simp [DynamicsData.toJsVal, jsonSer]
  rw [he, skipWs_cons_nonws (by decide)]
  simp only []
  have hsw : skipWs ('\n' :: (List.replicate (ind + 2) ' ' ++
      (jsonSerField (ind + 2) ("key", .str d.key) ++
        (jsonSerFields (ind + 2) [("_mergePartial", .str d.mergePartial),
          ("content_type", .str d.content_type)] ++
          ('\n' :: (List.replicate ind ' ' ++ '\x7d' :: rest)))))) =
      '"' :: (escStr ("key" : String).data ++ ('"' :: (':' :: ' ' ::
        (jsonSer (ind + 2) (.str d.key) ++
          (jsonSerFields (ind + 2) [("_mergePartial", .str d.mergePartial),
            ("content_type", .str d.content_type)] ++
            ('\n' :: (List.replicate ind ' ' ++ '\x7d' :: rest))))))) := by
    rw [skipWs_cons_ws (by decide), skipWs_replicate, serField_append,
      skipWs_cons_nonws (by decide)]
  rw [hsw]
  simp only []
  have hcongr : skipWs ('\n' :: (List.replicate (ind + 2) ' ' ++
      (jsonSerField (ind + 2) ("key", .str d.key) ++
        (jsonSerFields (ind + 2) [("_mergePartial", .str d.mergePartial),
          ("content_type", .str d.content_type)] ++
          ('\n' :: (List.replicate ind ' ' ++ '\x7d' :: rest)))))) =
      skipWs (jsonSerField (ind + 2) ("key", .str d.key) ++
        (jsonSerFields (ind + 2) [("_mergePartial", .str d.mergePartial),
          ("content_type", .str d.content_type)] ++
          ('\n' :: (List.replicate ind ' ' ++ '\x7d' :: rest)))) := by
    rw [skipWs_cons_ws (by decide), skipWs_replicate]
  rw [jsonPFields_congr f hcongr]
  rw [jsonPFields_ser _ "key" d.key f (ind + 2) ind rest
    (by intro g hg
        simp only [List.mem_cons, List.not_mem_nil, or_false] at hg
        rcases hg with rfl | rfl <;> exact ⟨_, rfl⟩) (by simp; omega)]
  simp [DynamicsData.toJsVal]

theorem jsonPElems_ser (ds : List DynamicsData) :
    ∀ (d : DynamicsData) (fuel ind m : Nat) (rest : List Char),
    9 * ds.length + 8 ≤ fuel →
    jsonPElems fuel (jsonSer ind d.toJsVal ++ (jsonSerElems ind (ds.map (·.toJsVal)) ++
      ('\n' :: (List.replicate m ' ' ++ ']' :: rest)))) =
      some (d.toJsVal :: ds.map (·.toJsVal), rest) := by
  induction ds with
  | nil =>
    intro d fuel ind m rest hf
    obtain ⟨f, rfl⟩ : ∃ f, fuel = f + 1 := ⟨fuel - 1, by omega⟩
    rw [jsonPElems]
    have he : jsonSer ind d.toJsVal ++ (jsonSerElems ind (([] : List DynamicsData).map (·.toJsVal)) ++
        ('\n' :: (List.replicate m ' ' ++ ']' :: rest))) =
        jsonSer ind d.toJsVal ++ ('\n' :: (List.replicate m ' ' ++ ']' :: rest)) := by
      simp [jsonSerElems]
    rw [he, jsonPVal_serRecord d f ind _ (by omega)]
    simp only []
    rw [skipWs_cons_ws (by decide), skipWs_replicate, skipWs_cons_nonws (by decide)]
    simp only [List.map_nil]
  | cons e es ih =>
    intro d fuel ind m rest hf
    obtain ⟨f, rfl⟩ : ∃ f, fuel = f + 1 := ⟨fuel - 1, by omega⟩
    rw [jsonPElems]
    have he : jsonSer ind d.toJsVal ++ (jsonSerElems ind ((e :: es).map (·.toJsVal)) ++
        ('\n' :: (List.replicate m ' ' ++ ']' :: rest))) =
        jsonSer ind d.toJsVal ++ (',' :: '\n' :: (List.replicate ind ' ' ++
          (jsonSer ind e.toJsVal ++ (jsonSerElems ind (es.map (·.toJsVal)) ++
            ('\n' :: (List.replicate m ' ' ++ ']' :: rest)))))) := by
      simp [jsonSerElems]
    rw [he, jsonPVal_serRecord d f ind _ (by omega)]
    simp only []
    rw [skipWs_cons_nonws (by decide)]
    simp only []
    have hcongr : skipWs ('\n' :: (List.replicate ind ' ' ++
        (jsonSer ind e.toJsVal ++ (jsonSerElems ind (es.map (·.toJsVal)) ++
          ('\n' :: (List.replicate m ' ' ++ ']' :: rest)))))) =
        skipWs (jsonSer ind e.toJsVal ++ (jsonSerElems ind (es.map (·.toJsVal)) ++
          ('\n' :: (List.replicate m ' ' ++ ']' :: rest)))) := by
      rw [skipWs_cons_ws (by decide), skipWs_replicate]
    rw [jsonPElems_congr f hcongr, ih e f ind m rest (by simp at hf ⊢; omega)]
    simp

theorem jsonPVal_serArr (ds : List DynamicsData) (fuel ind : Nat) (rest : List Char)
    (hf : 9 * ds.length + 1 ≤ fuel) :
    jsonPVal fuel (jsonSer ind (.arr (ds.map (·.toJsVal))) ++ rest) =
      some (.arr (ds.map (·.toJsVal)), rest) := by
  obtain ⟨f, rfl⟩ : ∃ f, fuel = f + 1 := ⟨fuel - 1, by omega⟩
  match ds with
  | [] =>
    rw [jsonPVal]
    have he2 : jsonSer ind (.arr (([] : List DynamicsData).map (·.toJsVal))) ++ rest =
        '[' :: (']' :: rest) := by
      simp [jsonSer]
    rw [he2, skipWs_cons_nonws (by decide)]
    simp only []
    rw [skipWs_cons_nonws (by decide)]
    simp only [List.map_nil]
  | d :: es =>
    rw [jsonPVal]
    have he : jsonSer ind (.arr ((d :: es).map (·.toJsVal))) ++ rest =
        '[' :: ('\n' :: (List.replicate (ind + 2) ' ' ++
          (jsonSer (ind + 2) d.toJsVal ++ (jsonSerElems (ind + 2) (es.map (·.toJsVal)) ++
            ('\n' :: (List.replicate ind ' ' ++ ']' :: rest)))))) := by
      simp [jsonSer]
    rw [he, skipWs_cons_nonws (by decide)]
    simp only []
    have hsw : skipWs ('\n' :: (List.replicate (ind + 2) ' ' ++
        (jsonSer (ind + 2) d.toJsVal ++ (jsonSerElems (ind + 2) (es.map (·.toJsVal)) ++
          ('\n' :: (List.replicate ind ' ' ++ ']' :: rest)))))) =
        '\x7b' :: ('\n' :: (List.replicate (ind + 2 + 2) ' ' ++
          (jsonSerField (ind + 2 + 2) ("key", .str d.key) ++
            (jsonSerFields (ind + 2 + 2) [("_mergePartial", .str d.mergePartial),
              ("content_type", .str d.content_type)] ++
              ('\n' :: (List.replicate (ind + 2) ' ' ++ '\x7d' ::
                (jsonSerElems (ind + 2) (es.map (·.toJsVal)) ++
                  ('\n' :: (List.replicate ind ' ' ++ ']' :: rest))))))))) := by
      rw [skipWs_cons_ws (by decide), skipWs_replicate]
      have : jsonSer (ind + 2) d.toJsVal ++ (jsonSerElems (ind + 2) (es.map (·.toJsVal)) ++
          ('\n' :: (List.replicate ind ' ' ++ ']' :: rest))) =
          '\x7b' :: ('\n' :: (List.replicate (ind + 2 + 2) ' ' ++
            (jsonSerField (ind + 2 + 2) ("key", .str d.key) ++
              (jsonSerFields (ind + 2 + 2) [("_mergePartial", .str d.mergePartial),
                ("content_type", .str d.content_type)] ++
                ('\n' :: (List.replicate (ind + 2) ' ' ++ '\x7d' ::
                  (jsonSerElems (ind + 2) (es.map (·.toJsVal)) ++
                    ('\n' :: (List.replicate ind ' ' ++ ']' :: rest))))))))) := by
        simp [DynamicsData.toJsVal, jsonSer]
      rw [this, skipWs_cons_nonws (by decide)]
    rw [hsw]
    show (jsonPElems f ('\n' :: (List.replicate (ind + 2) ' ' ++
        (jsonSer (ind + 2) d.toJsVal ++ (jsonSerElems (ind + 2) (es.map (·.toJsVal)) ++
          ('\n' :: (List.replicate ind ' ' ++ ']' :: rest))))))).map
        (fun p => (JsVal.arr p.1, p.2)) = _
    have hcongr : skipWs ('\n' :: (List.replicate (ind + 2) ' ' ++
        (jsonSer (ind + 2) d.toJsVal ++ (jsonSerElems (ind + 2) (es.map (·.toJsVal)) ++
          ('\n' :: (List.replicate ind ' ' ++ ']' :: rest)))))) =
        skipWs (jsonSer (ind + 2) d.toJsVal ++ (jsonSerElems (ind + 2) (es.map (·.toJsVal)) ++
          ('\n' :: (List.replicate ind ' ' ++ ']' :: rest)))) := by
      rw [skipWs_cons_ws (by decide), skipWs_replicate]
    rw [jsonPElems_congr f hcongr,
      jsonPElems_ser es d f (ind + 2) ind rest (by simp at hf ⊢; omega)]
    rfl

theorem two_le_quoteStr (s : String) : 2 ≤ (quoteStr s).length := by
  simp [quoteStr]

theorem nine_le_serRecord (d : DynamicsData) (ind : Nat) :
    9 ≤ (jsonSer ind d.toJsVal).length := by
  simp [DynamicsData.toJsVal, jsonSer, jsonSerField, jsonSerFields, quoteStr,
    List.length_append]
  omega

theorem serElems_records_len (ds : List DynamicsData) (ind : Nat) :
    9 * ds.length ≤ (jsonSerElems ind (ds.map (·.toJsVal))).length := by
  induction ds with
  | nil => simp [jsonSerElems]
  | cons e es ih =>
    have h1 := nine_le_serRecord e ind
    simp [jsonSerElems, List.length_append] at ih ⊢
    omega

theorem serArr_records_len (ds : List DynamicsData) (ind : Nat) :
    9 * ds.length ≤ (jsonSer ind (.arr (ds.map (·.toJsVal)))).length := by
  cases ds with
  | nil => simp
  | cons d es =>
    have h1 := nine_le_serRecord d (ind + 2)
    have h2 := serElems_records_len es (ind + 2)
    simp [jsonSer, List.length_append] at h2 ⊢
    omega

theorem jsonParse_records (ds : List DynamicsData) :
    jsonParse ⟨jsonSer 0 (.arr (ds.map (·.toJsVal)))⟩ =
      some (.arr (ds.map (·.toJsVal))) := by
  rw [jsonParse]
  have hdata : (String.mk (jsonSer 0 (.arr (ds.map (·.toJsVal))))).data =
      jsonSer 0 (.arr (ds.map (·.toJsVal))) := rfl
  rw [hdata]
  have hser := jsonPVal_serArr ds ((jsonSer 0 (.arr (ds.map (·.toJsVal)))).length + 1) 0 []
    (by have := serArr_records_len ds 0; omega)
  rw [List.append_nil] at hser
  rw [hser]
  simp [skipWs]

/-- `Array.isArray`-style test for objects. -/
def JsVal.isObj : JsVal → Bool
  | .obj _ => true
  | _ => false

/-- Split a character list into lines at every newline. -/
def splitLines : List Char → List (List Char)
  | [] => [[]]
  | c :: cs =>
    if c = '\n' then [] :: splitLines cs
    else
      match splitLines cs with
      | l :: ls => (c :: l) :: ls
      | [] => [[c]]

theorem splitLines_ne_nil (cs : List Char) : splitLines cs ≠ [] := by
  induction cs with
  | nil => simp [splitLines]
  | cons c cs ih =>
    rw [splitLines]
    split
    · simp
    · match h : splitLines cs with
      | [] => exact absurd h ih
      | l :: ls => simp

theorem splitLines_line (l : List Char) (rest : List Char) (hl : '\n' ∉ l) :
    splitLines (l ++ '\n' :: rest) = l :: splitLines rest := by
  induction l with
  | nil => simp [splitLines]
  | cons c cs ih =>
    have hc : c ≠ '\n' := by intro h; exact hl (h ▸ List.mem_cons_self c cs)
    have hcs : '\n' ∉ cs := fun h => hl (List.mem_cons_of_mem c h)
    rw [List.cons_append, splitLines, if_neg hc, ih hcs]

/-- A character allowed in a bare TOML key. -/
def isBareKeyChar (c : Char) : Bool :=
  c.isAlphanum || c = '_' || c = '-'

/-- Modelled from the spec: parse one scalar value token of the registry
grammars — a double-quoted string, a boolean literal, or an empty inline
sequence. -/
def scalarTok (cs : List Char) : Option JsVal :=
  match cs with
  | [] => none
  | c :: r =>
    if c = '"' then
      match scanQuotedF (r.length + 1) r with
      | some (b, rest) => if rest = [] then some (.str ⟨b⟩) else none
      | none => none
    else if c :: r = ("true" : String).data then some (.boolean true)
    else if c :: r = ("false" : String).data then some (.boolean false)
    else if c :: r = ['[', ']'] then some (.arr [])
    else none

/-- One analysed line of a TOML registry document. -/
inductive TomlLine where
  | blank
  | header (s : String)
  | pair (k : String) (v : JsVal)
  | bad

/-- Modelled from the spec: classify one line of a TOML document — blank
or comment, `[[name]]` array-of-tables header, or a `key = value` pair
with a bare key. -/
def parseTomlLine (line : List Char) : TomlLine :=
  if line.all (fun c => c = ' ' || c = '\t') then .blank
  else if line.head? = some '#' then .blank
  else if line.take 2 = ['[', '['] then
    let name := (line.drop 2).takeWhile (fun c => c ≠ ']')
    let tail := (line.drop 2).dropWhile (fun c => c ≠ ']')
    if name ≠ [] ∧ name.all isBareKeyChar ∧ tail = [']', ']'] then .header ⟨name⟩
    else .bad
  else
    let kraw := line.takeWhile (fun c => c ≠ '=')
    let vtail := line.dropWhile (fun c => c ≠ '=')
    if vtail = [] then .bad
    else
      let vraw := vtail.tail.dropWhile (fun c => c = ' ')
      let k := kraw.filter (fun c => c ≠ ' ')
      if k ≠ [] ∧ k.all isBareKeyChar ∧ kraw.all (fun c => isBareKeyChar c || c = ' ') then
        match scalarTok vraw with
        | some v => .pair ⟨k⟩ v
        | none => .bad
      else .bad

/-- Classify every line; `none` if any line is malformed. -/
def tomlLineList : List (List Char) → Option (List TomlLine)
  | [] => some []
  | l :: ls =>
    match parseTomlLine l with
    | .bad => none
    | tl => (tomlLineList ls).map (tl :: ·)

/-- The `key = value` pairs before the first section header. -/
def tomlTop : List TomlLine → List (String × JsVal) × List TomlLine
  | [] => ([], [])
  | l :: rest =>
    match l with
    | .blank => tomlTop rest
    | .pair k v => let (fs, r) := tomlTop rest; ((k, v) :: fs, r)
    | _ => ([], l :: rest)

/-- The `key = value` pairs of one section body. -/
def tomlSectionPairs : List TomlLine → List (String × JsVal) × List TomlLine
  | [] => ([], [])
  | l :: rest =>
    match l with
    | .blank => tomlSectionPairs rest
    | .pair k v => let (fs, r) := tomlSectionPairs rest; ((k, v) :: fs, r)
    | _ => ([], l :: rest)

/-- The `[[name]]` sections of a document, each with its pairs.  `fuel`
bounds the recursion; callers pass the line count plus one. -/
def tomlSectionList : Nat → List TomlLine → Option (List (String × List (String × JsVal)))
  | 0, _ => none
  | _ + 1, [] => some []
  | fuel + 1, l :: rest =>
    match l with
    | .blank => tomlSectionList fuel rest
    | .header n =>
      let (fs, r) := tomlSectionPairs rest
      (tomlSectionList fuel r).map ((n, fs) :: ·)
    | _ => none

/-- Replace the value of the first binding of `k` in an association list. -/
def replaceField (k : String) (v : JsVal) : List (String × JsVal) → List (String × JsVal)
  | [] => []
  | (k2, v2) :: rest =>
    if k2 = k then (k2, v) :: rest else (k2, v2) :: replaceField k v rest

/-- Append one `[[name]]` section to the document: a fresh name starts a
one-element array of tables, an existing array is extended, and any other
existing value is a TOML error. -/
def addSection (doc : List (String × JsVal)) (name : String)
    (fs : List (String × JsVal)) : Option (List (String × JsVal)) :=
  match doc.lookup name with
  | none => some (doc ++ [(name, .arr [.obj fs])])
  | some (.arr xs) => some (replaceField name (.arr (xs ++ [.obj fs])) doc)
  | some _ => none

/-- Fold all sections into the document. -/
def addSections (doc : List (String × JsVal)) :
    List (String × List (String × JsVal)) → Option (List (String × JsVal))
  | [] => some doc
  | (n, fs) :: rest =>
    match addSection doc n fs with
    | some doc2 => addSections doc2 rest
    | none => none

/-- Modelled from the spec: the `smol-toml` parser (an npm dependency, not
part of this repository) restricted to the document shapes of the
registry files — top-level scalar pairs and `[[name]]` array-of-tables
sections of scalar pairs.  Returns the top-level table. -/
def tomlParse (content : String) : Option (List (String × JsVal)) :=
  match tomlLineList (splitLines content.data) with
  | none => none
  | some tls =>
    let (top, rest) := tomlTop tls
    match tomlSectionList (rest.length + 1) rest with
    | none => none
    | some secs => addSections top secs

/-- The inline text of a scalar TOML value. -/
def tomlValText : JsVal → List Char
  | .str s => quoteStr s
  | .boolean true => ('t' : Char) :: ['r', 'u', 'e']
  | .boolean false => ('f' : Char) :: ['a', 'l', 's', 'e']
  | .arr _ => ['[', ']']
  | .obj _ => ['\x7b', '\x7d']

/-- One `key = value` line (without the newline). -/
def tomlPairLine (k : String) (v : JsVal) : List Char :=
  k.data ++ (' ' :: '=' :: ' ' :: tomlValText v)

/-- The `key = value` lines of one section body. -/
def tomlFieldLines : List (String × JsVal) → List Char
  | [] => []
  | (k, v) :: fs => tomlPairLine k v ++ ('\n' :: tomlFieldLines fs)

/-- The `[[dynamics]]` sections of a record array. -/
def tomlSectionsText : List JsVal → List Char
  | [] => []
  | v :: rest =>
    match v with
    | .obj fs => ('[' :: '[' :: ("dynamics" : String).data ++ (']' :: ']' :: '\n' ::
        tomlFieldLines fs)) ++ tomlSectionsText rest
    | _ => tomlSectionsText rest

/-- The comma-separated inline values of a non-table array. -/
def tomlInlineVals : List JsVal → List Char
  | [] => []
  | [v] => tomlValText v
  | v :: rest => tomlValText v ++ (',' :: ' ' :: tomlInlineVals rest)

/-- Modelled from the spec: `smol-toml`'s stringify (an npm dependency,
not part of this repository) of the wrapped registry `{dynamics: data}`:
a nonempty array of tables becomes one `[[dynamics]]` section per record;
any other array is written as an inline `dynamics = [...]` pair. -/
def tomlStringify (data : List JsVal) : String :=
  if !data.isEmpty && data.all (fun v => v.isObj) then ⟨tomlSectionsText data⟩
  else ⟨("dynamics = [" : String).data ++ (tomlInlineVals data ++ (']' :: ['\n']))⟩

/-- The inline text of a scalar YAML value (the model always double-quotes
strings). -/
def yamlScalar : JsVal → List Char
  | .str s => quoteStr s
  | .boolean true => ('t' : Char) :: ['r', 'u', 'e']
  | .boolean false => ('f' : Char) :: ['a', 'l', 's', 'e']
  | .arr _ => ['[', ']']
  | .obj _ => ['\x7b', '\x7d']

/-- One `"key": value` mapping entry. -/
def yamlPair (k : String) (v : JsVal) : List Char :=
  quoteStr k ++ (':' :: ' ' :: yamlScalar v)

/-- The two-space-indented continuation lines of one block-sequence item. -/
def yamlMoreFields : List (String × JsVal) → List Char
  | [] => []
  | (k, v) :: fs => ' ' :: ' ' :: (yamlPair k v ++ ('\n' :: yamlMoreFields fs))

/-- One `- ...` block-sequence item. -/
def yamlItem : JsVal → List Char
  | .obj fs =>
    match fs with
    | [] => ['-', ' ', '\x7b', '\x7d', '\n']
    | (k, v) :: rest => '-' :: ' ' :: (yamlPair k v ++ ('\n' :: yamlMoreFields rest))
  | v => '-' :: ' ' :: (yamlScalar v ++ ['\n'])

/-- All items of a block sequence. -/
def yamlItemsText : List JsVal → List Char
  | [] => []
  | x :: xs => yamlItem x ++ yamlItemsText xs

/-- Modelled from the spec: the `yaml` npm package's stringify (not part
of this repository) restricted to the record arrays the tool writes — an
empty array becomes the flow sequence `[]`, a nonempty one a block
sequence of single-level mappings; the model always double-quotes keys
and string values. -/
def yamlStringify (data : List JsVal) : String :=
  match data with
  | [] => "[]\n"
  | _ => ⟨yamlItemsText data⟩

/-- One analysed line of a YAML block-sequence document. -/
inductive YamlLine where
  | blank
  | item (k : String) (v : JsVal)
  | cont (k : String) (v : JsVal)
  | bad

/-- Parse a `"key": value` mapping entry. -/
def yamlKV (cs : List Char) : Option (String × JsVal) :=
  match cs with
  | [] => none
  | c :: r =>
    if c = '"' then
      match scanQuotedF (r.length + 1) r with
      | some (k, r1) =>
        if r1.take 2 = [':', ' '] then
          (scalarTok (r1.drop 2)).map (fun v => (⟨k⟩, v))
        else none
      | none => none
    else none

/-- Modelled from the spec: classify one line of a YAML block sequence of
single-level mappings — a new `- "k": v` item, a two-space-indented
`"k": v` continuation, or a blank line. -/
def parseYamlLine (line : List Char) : YamlLine :=
  if line.all (fun c => c = ' ') then .blank
  else if line.take 2 = ['-', ' '] then
    match yamlKV (line.drop 2) with
    | some (k, v) => .item k v
    | none => .bad
  else if line.take 2 = [' ', ' '] then
    match yamlKV (line.drop 2) with
    | some (k, v) => .cont k v
    | none => .bad
  else .bad

/-- The continuation fields following an item line. -/
def yamlConts : List YamlLine → List (String × JsVal) × List YamlLine
  | [] => ([], [])
  | l :: rest =>
    match l with
    | .cont k v => let (fs, r) := yamlConts rest; ((k, v) :: fs, r)
    | _ => ([], l :: rest)

/-- Assemble the classified lines into the sequence of mappings.  `fuel`
bounds the recursion; callers pass the line count plus one. -/
def yamlItemsParse : Nat → List YamlLine → Option (List JsVal)
  | 0, _ => none
  | _ + 1, [] => some []
  | fuel + 1, l :: rest =>
    match l with
    | .blank => yamlItemsParse fuel rest
    | .item k v =>
      let (fs, r) := yamlConts rest
      (yamlItemsParse fuel r).map (JsVal.obj ((k, v) :: fs) :: ·)
    | _ => none

/-- Classify every line; `none` if any line is malformed. -/
def yamlLineList : List (List Char) → Option (List YamlLine)
  | [] => some []
  | l :: ls =>
    match parseYamlLine l with
    | .bad => none
    | yl => (yamlLineList ls).map (yl :: ·)

/-- Modelled from the spec: the `yaml` npm package's parser (not part of
this repository) restricted to the document shapes of the registry files:
the empty flow sequence, or a block sequence of single-level mappings. -/
def yamlParse (content : String) : Option JsVal :=
  if content = "[]" ∨ content = "[]\n" then some (.arr [])
  else
    match yamlLineList (splitLines content.data) with
    | none => none
    | some yls =>
      match yamlItemsParse (yls.length + 1) yls with
      | some xs => some (.arr xs)
      | none => none

/-- `parseDynamicsFile` (lines 111-134): empty or whitespace-only content
gives an empty array; otherwise the content is parsed by the format's
codec; a parse failure is caught, logged and gives an empty array.  The
`yaml`/`json` branches return the parsed value only when it is an array
(`Array.isArray(data) ? data : []`); the `toml` branch returns
`tomlData.dynamics || []`. -/
def parseDynamicsFile (ft : FileType) (content : String) : JsVal :=
  if trimIsEmpty content then .arr []
  else
    match ft with
    | .yaml =>
      match yamlParse content with
      | some v => if v.isArr then v else .arr []
      | none => .arr []
    | .toml =>
      match tomlParse content with
      | some doc =>
        match doc.lookup "dynamics" with
        | some v => if jsTruthy v then v else .arr []
        | none => .arr []
      | none => .arr []
    | .json =>
      match jsonParse content with
      | some v => if v.isArr then v else .arr []
      | none => .arr []

/-- `stringifyDynamicsData` (lines 136-147): `yaml.stringify(data)`,
`stringifyToml({dynamics: data})`, or `JSON.stringify(data, null, 2)`. -/
def stringifyDynamicsData (ft : FileType) (data : List JsVal) : String :=
  match ft with
  | .yaml => yamlStringify data
  | .toml => tomlStringify data
  | .json => ⟨jsonSer 0 (.arr data)⟩

/-- The key comparison `entry.key === newDynamicsData.key` of the
`findIndex` callback (lines 183-185). -/
def keyMatches (k : String) (entry : JsVal) : Bool :=
  match jsKey entry with
  | some (.str s) => s = k
  | _ => false

/-- The observable outcome of one `updateDynamicsFile` run. -/
inductive Outcome where
  | created
  | inserted
  | replaced
  | skipped
deriving DecidableEq, Repr

/-- The merge step of `updateDynamicsFile` (lines 182-207) on the parsed
array: `findIndex` the entry carrying the new record's key; on a hit,
replace it in place when the overwrite prompt is confirmed and leave the
array untouched when it is declined; on a miss, push the record onto the
end. -/
def mergeStep (arr : List JsVal) (nd : JsVal) (ndKey : String) (overwrite : Bool) :
    Outcome × List JsVal :=
  match arr.findIdx? (keyMatches ndKey) with
  | some i => if overwrite then (.replaced, arr.set i nd) else (.skipped, arr)
  | none => (.inserted, arr ++ [nd])

/-- Outcome and resulting registry-file content of `updateDynamicsFile`. -/
structure UpdateResult where
  outcome : Outcome
  file : Option String
deriving Repr

/-- `updateDynamicsFile` (lines 149-216) as a pure state transformer on
the registry file's content (`none` means the file does not exist).
`createConfirm` and `overwriteConfirm` are the answers the injected
confirmation prompts give.  The result is `none` exactly on the one path
on which the JavaScript would throw (the decoded registry is not an
array, so `findIndex` is not a function); otherwise it carries the
outcome and the file content after the call — on every `skipped` path
the function returns before any write, so the content is unchanged. -/
def updateDynamicsFile (ft : FileType) (file : Option String)
    (createConfirm overwriteConfirm : Bool) (blockName : String) :
    Option UpdateResult :=
  let nd := newDynamicsData blockName
  match file with
  | none =>
    if !createConfirm then some ⟨.skipped, none⟩
    else some ⟨.created, some (stringifyDynamicsData ft [nd.toJsVal])⟩
  | some content =>
    match parseDynamicsFile ft content with
    | .arr xs =>
      let r := mergeStep xs nd.toJsVal nd.key overwriteConfirm
      if r.1 = .skipped then some ⟨.skipped, some content⟩
      else some ⟨r.1, some (stringifyDynamicsData ft r.2)⟩
    | _ => none

/-- `createContentFile`'s template data (lines 84-92): a single field with
empty `key`, `title` and `type`. -/
def contentData : JsVal :=
  .obj [("fields", .arr [.obj [("key", .str ""), ("title", .str ""),
    ("type", .str "")]])]

/-- `formatContentAsJson` (lines 74-76): `JSON.stringify(data, null, 2)`. -/
def formatContentAsJson (data : JsVal) : String :=
  ⟨jsonSer 0 data⟩

/-- The content-definition file path `quiqr/model/partials/<name>.<ext>`
(lines 79-80). -/
def contentFilePath (blockName : String) (ft : FileType) : String :=
  "quiqr/model/partials/" ++ blockName ++ "." ++ ft.ext

/-- The registry file path (line 150). -/
def dynamicsFilePath (ft : FileType) : String :=
  "quiqr/model/includes/dynamics." ++ ft.ext

/-- The HTML template path
`themes/<theme>/layouts/partials/content_blocks/<name-with-dashes>.html`
(lines 315-316). -/
def htmlFilePath (theme blockName : String) : String :=
  "themes/" ++ theme ++ "/layouts/partials/content_blocks/" ++
    blockNameWithDashes blockName ++ ".html"

/-- The generated HTML template (lines 335-339). -/
def htmlContent (blockName : String) : String :=
  "<!-- " ++ blockName ++ " block template -->\n  <div class=\"" ++
    blockNameWithDashes blockName ++ "-block\">\n    <!-- Add your " ++ blockName ++
    " block content here -->\n  </div>\n  "

theorem keyMatches_iff (k : String) (v : JsVal) :
    keyMatches k v = true ↔ jsKey v = some (.str k) := by
  unfold keyMatches
  match h : jsKey v with
  | none => simp
  | some (.str s) => simp [decide_eq_true_eq]
  | some (.boolean b) => simp
  | some (.arr xs) => simp
  | some (.obj fs) => simp

theorem mergeStep_cons (x : JsVal) (xs : List JsVal) (nd : JsVal) (k : String) (ow : Bool) :
    mergeStep (x :: xs) nd k ow =
      if keyMatches k x then
        (if ow then (.replaced, nd :: xs) else (.skipped, x :: xs))
      else
        ((mergeStep xs nd k ow).1, x :: (mergeStep xs nd k ow).2) := by
  unfold mergeStep
  by_cases h : keyMatches k x
  · simp [List.findIdx?_cons, h, List.set]
  · simp only [List.findIdx?_cons, List.findIdx?_start_succ, h, Bool.false_eq_true, if_false,
      Nat.zero_add]
    match hf : xs.findIdx? (keyMatches k) with
    | none => simp
    | some i => by_cases how : ow <;> simp [how, List.set]

theorem mergeStep_mem (xs : List JsVal) (nd : JsVal) (k : String) (ow : Bool) :
    ∀ y ∈ (mergeStep xs nd k ow).2, y ∈ xs ∨ y = nd := by
  induction xs with
  | nil =>
    intro y hy
    unfold mergeStep at hy
    simp at hy
    exact Or.inr hy
  | cons x xs ih =>
    intro y hy
    rw [mergeStep_cons] at hy
    by_cases h : keyMatches k x
    · by_cases how : ow
      · simp only [h, how, if_true] at hy
        rcases List.mem_cons.mp hy with rfl | hy2
        · exact Or.inr rfl
        · exact Or.inl (List.mem_cons_of_mem _ hy2)
      · simp only [h, how, if_true, Bool.false_eq_true, if_false] at hy
        exact Or.inl hy
    · simp only [h, Bool.false_eq_true, if_false, List.mem_cons] at hy
      rcases hy with rfl | hy
      · exact Or.inl (List.mem_cons_self _ _)
      · rcases ih y hy with h2 | h2
        · exact Or.inl (List.mem_cons_of_mem _ h2)
        · exact Or.inr h2

theorem mergeStep_nodup (xs : List JsVal) (nd : JsVal) (k : String) (ow : Bool)
    (hnd : jsKey nd = some (.str k)) (h : (xs.map jsKey).Nodup) :
    (((mergeStep xs nd k ow).2).map jsKey).Nodup := by
  induction xs with
  | nil =>
    unfold mergeStep
    simp
  | cons x xs ih =>
    rw [mergeStep_cons]
    simp only [List.map_cons, List.nodup_cons] at h
    by_cases hx : keyMatches k x
    · by_cases how : ow
      · simp only [hx, how, if_true]
        simp only [List.map_cons, List.nodup_cons]
        refine ⟨?_, h.2⟩
        rw [hnd, ← (keyMatches_iff k x).mp hx]
        exact h.1
      · simp only [hx, how, if_true, Bool.false_eq_true, if_false]
        simp only [List.map_cons, List.nodup_cons]
        exact h
    · simp only [hx, Bool.false_eq_true, if_false]
      simp only [List.map_cons, List.nodup_cons]
      refine ⟨?_, ih h.2⟩
      intro hmem
      simp only [List.mem_map] at hmem
      obtain ⟨y, hy, hyk⟩ := hmem
      rcases mergeStep_mem xs nd k ow y hy with h2 | h2
      · exact h.1 (List.mem_map.mpr ⟨y, h2, hyk⟩)
      · subst h2
        rw [hnd] at hyk
        exact hx ((keyMatches_iff k x).mpr hyk.symm)

theorem mergeStep_idem (xs : List JsVal) (nd : JsVal) (k : String)
    (hnd : keyMatches k nd = true) :
    mergeStep ((mergeStep xs nd k true).2) nd k true =
      (.replaced, (mergeStep xs nd k true).2) := by
  induction xs with
  | nil =>
    unfold mergeStep
    simp [List.findIdx?_cons, hnd, List.set]
  | cons x xs ih =>
    rw [mergeStep_cons]
    by_cases hx : keyMatches k x
    · simp only [hx, if_true]
      rw [mergeStep_cons]
      simp [hnd]
    · simp only [hx, Bool.false_eq_true, if_false]
      rw [mergeStep_cons]
      simp only [hx, Bool.false_eq_true, if_false, ih]

theorem mergeStep_count (xs : List JsVal) (nd : JsVal) (k : String)
    (hnd : keyMatches k nd = true) (h : (xs.map jsKey).Nodup) :
    ((mergeStep xs nd k true).2).countP (keyMatches k) = 1 := by
  induction xs with
  | nil =>
    unfold mergeStep
    simp [List.countP_cons, hnd]
  | cons x xs ih =>
    rw [mergeStep_cons]
    simp only [List.map_cons, List.nodup_cons] at h
    by_cases hx : keyMatches k x
    · simp only [hx, if_true]
      rw [List.countP_cons_of_pos _ _ hnd]
      have hz : xs.countP (keyMatches k) = 0 := by
        rw [List.countP_eq_zero]
        intro y hy hpy
        refine h.1 (List.mem_map.mpr ⟨y, hy, ?_⟩)
        rw [(keyMatches_iff k y).mp hpy, (keyMatches_iff k x).mp hx]
      simp [hz]
    · simp only [hx, Bool.false_eq_true, if_false]
      rw [List.countP_cons_of_neg _ _ (by simp [hx]), ih h.2]

theorem mergeStep_not_found (xs : List JsVal) (nd : JsVal) (k : String) (ow : Bool)
    (h : xs.findIdx? (keyMatches k) = none) :
    mergeStep xs nd k ow = (.inserted, xs ++ [nd]) := by
  unfold mergeStep
  rw [h]

theorem mergeStep_found (xs : List JsVal) (nd : JsVal) (k : String) (i : Nat)
    (h : xs.findIdx? (keyMatches k) = some i) :
    mergeStep xs nd k true = (.replaced, xs.set i nd) ∧
      (xs.set i nd).length = xs.length ∧
      ∀ j, j ≠ i → (xs.set i nd)[j]? = xs[j]? := by
  refine ⟨?_, List.length_set xs i nd, fun j hj => List.getElem?_set_ne (Ne.symm hj)⟩
  unfold mergeStep
  rw [h]
  simp

theorem newline_not_mem_escChar (c : Char) : '\n' ∉ escChar c := by
  by_cases hq : c = '"'
  · simp [escChar, hq]
  by_cases hb : c = '\\'
  · simp [escChar, hq, hb]
  by_cases hc : c.toNat < 32
  · have he : escChar c = ['\\', 'u', hexDigit (c.toNat / 4096 % 16),
        hexDigit (c.toNat / 256 % 16), hexDigit (c.toNat / 16 % 16),
        hexDigit (c.toNat % 16)] := by
      simp [escChar, hq, hb, hc]
    rw [he]
    intro hmem
    have hhex : ∀ n, n < 16 → 48 ≤ (hexDigit n).toNat := by decide
    have h10 : ('\n').toNat = 10 := by decide
    simp only [List.mem_cons, List.not_mem_nil, or_false] at hmem
    rcases hmem with h | h | h | h | h | h
    · exact absurd h.symm (by decide)
    · exact absurd h.symm (by decide)
    · have h1 := hhex (c.toNat / 4096 % 16) (Nat.mod_lt _ (by omega))
      rw [← h, h10] at h1
      omega
    · have h1 := hhex (c.toNat / 256 % 16) (Nat.mod_lt _ (by omega))
      rw [← h, h10] at h1
      omega
    · have h1 := hhex (c.toNat / 16 % 16) (Nat.mod_lt _ (by omega))
      rw [← h, h10] at h1
      omega
    · have h1 := hhex (c.toNat % 16) (Nat.mod_lt _ (by omega))
      rw [← h, h10] at h1
      omega
  · have he : escChar c = [c] := by simp [escChar, hq, hb, hc]
    rw [he]
    intro hmem
    simp only [List.mem_singleton] at hmem
    rw [← hmem] at hc
    exact hc (by decide)

theorem newline_not_mem_escStr (b : List Char) : '\n' ∉ escStr b := by
  induction b with
  | nil => simp [escStr]
  | cons c cs ih =>
    rw [escStr]
    intro hmem
    rcases List.mem_append.mp hmem with h | h
    · exact newline_not_mem_escChar c h
    · exact ih h

theorem newline_not_mem_quoteStr (v : String) : '\n' ∉ quoteStr v := by
  intro hmem
  rw [quoteStr] at hmem
  rcases List.mem_cons.mp hmem with h | h
  · exact absurd h (by decide)
  · rcases List.mem_append.mp h with h2 | h2
    · exact newline_not_mem_escStr v.data h2
    · simp at h2

theorem takeWhile_append_all {p : Char → Bool} {l : List Char} (h : ∀ c ∈ l, p c = true)
    (r : List Char) : (l ++ r).takeWhile p = l ++ r.takeWhile p := by
  induction l with
  | nil => simp
  | cons c cs ih =>
    simp only [List.cons_append, List.takeWhile_cons]
    rw [h c (List.mem_cons_self c cs), ih (fun d hd => h d (List.mem_cons_of_mem c hd))]
    simp

theorem dropWhile_append_all {p : Char → Bool} {l : List Char} (h : ∀ c ∈ l, p c = true)
    (r : List Char) : (l ++ r).dropWhile p = r.dropWhile p := by
  induction l with
  | nil => simp
  | cons c cs ih =>
    simp only [List.cons_append, List.dropWhile_cons]
    rw [h c (List.mem_cons_self c cs), ih (fun d hd => h d (List.mem_cons_of_mem c hd))]
    simp

theorem filter_eq_self_of_all {p : Char → Bool} {l : List Char}
    (h : ∀ c ∈ l, p c = true) : l.filter p = l := by
  induction l with
  | nil => simp
  | cons c cs ih =>
    rw [List.filter_cons, if_pos (h c (List.mem_cons_self c cs)),
      ih (fun d hd => h d (List.mem_cons_of_mem c hd))]

theorem scalarTok_quoteStr (v : String) : scalarTok (quoteStr v) = some (.str v) := by
  have hq : quoteStr v = '"' :: (escStr v.data ++ '"' :: []) := by simp [quoteStr]
  rw [hq, scalarTok]
  simp only [if_pos rfl, scanQuotedF_quote]
  simp

theorem parseTomlLine_pair (k v : String)
    (hk1 : k.data ≠ []) (hk2 : ∀ c ∈ k.data, isBareKeyChar c = true) :
    parseTomlLine (tomlPairLine k (.str v)) = .pair k (.str v) := by
  obtain ⟨c0, ks, hk⟩ : ∃ c0 ks, k.data = c0 :: ks :=
    match hd : k.data, hk1 with
    | c :: cs, _ => ⟨c, cs, rfl⟩
  have hc0 : isBareKeyChar c0 = true := hk2 c0 (by rw [hk]; exact List.mem_cons_self _ _)
  have hsp : c0 ≠ ' ' := fun h => by rw [h] at hc0; exact absurd hc0 (by decide)
  have htab : c0 ≠ '\t' := fun h => by rw [h] at hc0; exact absurd hc0 (by decide)
  have hhash : c0 ≠ '#' := fun h => by rw [h] at hc0; exact absurd hc0 (by decide)
  have hbrack : c0 ≠ '[' := fun h => by rw [h] at hc0; exact absurd hc0 (by decide)
  have hline : tomlPairLine k (.str v) = k.data ++ (' ' :: '=' :: ' ' :: quoteStr v) := by
    simp [tomlPairLine, tomlValText]
  have hneq : ∀ c ∈ k.data, decide (c ≠ '=') = true := by
    intro c hc
    have hb := hk2 c hc
    rw [decide_eq_true_eq]
    intro h
    rw [h] at hb
    exact absurd hb (by decide)
  have hnsp : ∀ c ∈ k.data, decide (c ≠ ' ') = true := by
    intro c hc
    have hb := hk2 c hc
    rw [decide_eq_true_eq]
    intro h
    rw [h] at hb
    exact absurd hb (by decide)
  rw [parseTomlLine, hline]
  rw [if_neg ?hb1, if_neg ?hb2, if_neg ?hb3]
  case hb1 =>
    rw [hk]
    simp only [List.cons_append, List.all_cons, Bool.and_eq_true]
    intro hcontra
    rcases Bool.or_eq_true_iff.mp hcontra.1 with h | h
    · exact hsp (by simpa using h)
    · exact htab (by simpa using h)
  case hb2 =>
    rw [hk]
    simp only [List.cons_append, List.head?_cons, Option.some.injEq]
    exact hhash
  case hb3 =>
    rw [hk]
    intro hcontra
    simp only [List.cons_append, List.take_succ_cons, List.cons.injEq] at hcontra
    exact hbrack hcontra.1
  rw [takeWhile_append_all hneq, dropWhile_append_all hneq]
  have hvdrop : List.dropWhile (fun c => decide (c = ' ')) (quoteStr v) = quoteStr v := by
    rw [quoteStr]
    simp [List.dropWhile_cons]
  have hfilt : List.filter (fun c => decide (c ≠ ' ')) (k.data ++ [' ']) = k.data := by
    rw [List.filter_append, filter_eq_self_of_all hnsp]
    simp
  have hall : k.data.all isBareKeyChar = true := List.all_eq_true.mpr hk2
  have happ : (k.data ++ [' ']).all (fun c => isBareKeyChar c || decide (c = ' ')) = true := by
    rw [List.all_eq_true]
    intro c hc
    rcases List.mem_append.mp hc with h | h
    · simp [hk2 c h]
    · simp only [List.mem_singleton] at h
      subst h
      simp
  simp only [List.takeWhile_cons, List.dropWhile_cons]
  simp [hk1, hall, happ, hvdrop, hfilt, scalarTok_quoteStr]
  rw [if_pos ?cond]
  case cond =>
    constructor
    · exact ⟨c0, by rw [hk]; exact List.mem_cons_self _ _, hsp⟩
    · intro x hx
      exact Or.inr (hk2 x hx)
  have hfilt2 : List.filter (fun c => !decide (c = ' ')) k.data = k.data := by
    apply filter_eq_self_of_all
    intro c hc
    have := hnsp c hc
    rw [decide_eq_true_eq] at this
    simp [this]
  rw [hfilt2]

theorem parseTomlLine_nil : parseTomlLine [] = .blank := rfl

theorem parseTomlLine_header :
    parseTomlLine ['[', '[', 'd', 'y', 'n', 'a', 'm', 'i', 'c', 's', ']', ']'] =
      .header "dynamics" := rfl

/-- The three field names of a registry record, paired with a record's
values (the object fields of `DynamicsData.toJsVal`). -/
def recFields (d : DynamicsData) : List (String × JsVal) :=
  [("key", .str d.key), ("_mergePartial", .str d.mergePartial),
   ("content_type", .str d.content_type)]

/-- The four text lines one record contributes to the TOML registry. -/
def tomlRecordLines (d : DynamicsData) : List (List Char) :=
  [('[' :: '[' :: (("dynamics" : String).data ++ [']', ']'])),
   tomlPairLine "key" (.str d.key),
   tomlPairLine "_mergePartial" (.str d.mergePartial),
   tomlPairLine "content_type" (.str d.content_type)]

/-- The text lines of the whole TOML registry body. -/
def tomlLinesOf : List DynamicsData → List (List Char)
  | [] => [[]]
  | d :: rs => tomlRecordLines d ++ tomlLinesOf rs

/-- The four classified lines one record contributes. -/
def tomlRecordTLines (d : DynamicsData) : List TomlLine :=
  [.header "dynamics", .pair "key" (.str d.key),
   .pair "_mergePartial" (.str d.mergePartial),
   .pair "content_type" (.str d.content_type)]

/-- The classified lines of the whole TOML registry body. -/
def tomlTLinesOf : List DynamicsData → List TomlLine
  | [] => [.blank]
  | d :: rs => tomlRecordTLines d ++ tomlTLinesOf rs

theorem newline_not_mem_tomlPairLine (k : String) (hknl : '\n' ∉ k.data) (v : String) :
    '\n' ∉ tomlPairLine k (.str v) := by
  intro hmem
  simp only [tomlPairLine, tomlValText] at hmem
  rcases List.mem_append.mp hmem with h | h
  · exact hknl h
  · simp only [List.mem_cons] at h
    rcases h with h | h | h | h
    · exact absurd h (by decide)
    · exact absurd h (by decide)
    · exact absurd h (by decide)
    · exact newline_not_mem_quoteStr v h

theorem toml_splitLines (rs : List DynamicsData) :
    splitLines (tomlSectionsText (rs.map (·.toJsVal))) = tomlLinesOf rs := by
  induction rs with
  | nil => rfl
  | cons d rs ih =>
    have he : tomlSectionsText ((d :: rs).map (·.toJsVal)) =
        ('[' :: '[' :: (("dynamics" : String).data ++ [']', ']'])) ++ '\n' ::
          (tomlPairLine "key" (.str d.key) ++ '\n' ::
            (tomlPairLine "_mergePartial" (.str d.mergePartial) ++ '\n' ::
              (tomlPairLine "content_type" (.str d.content_type) ++ '\n' ::
                tomlSectionsText (rs.map (·.toJsVal))))) := by
      simp [tomlSectionsText, DynamicsData.toJsVal, tomlFieldLines, tomlPairLine]
    rw [he, splitLines_line _ _ (by decide),
      splitLines_line _ _ (newline_not_mem_tomlPairLine _ (by decide) _),
      splitLines_line _ _ (newline_not_mem_tomlPairLine _ (by decide) _),
      splitLines_line _ _ (newline_not_mem_tomlPairLine _ (by decide) _), ih]
    rfl

theorem toml_lineList (rs : List DynamicsData) :
    tomlLineList (tomlLinesOf rs) = some (tomlTLinesOf rs) := by
  induction rs with
  | nil =>
    show tomlLineList [[]] = some [.blank]
    rw [tomlLineList, parseTomlLine_nil]
    rfl
  | cons d rs ih =>
    show tomlLineList (tomlRecordLines d ++ tomlLinesOf rs) = _
    rw [tomlRecordLines]
    simp only [List.cons_append, List.nil_append]
    rw [tomlLineList, parseTomlLine_header]
    rw [tomlLineList, parseTomlLine_pair _ _ (by decide) (by decide)]
    rw [tomlLineList, parseTomlLine_pair _ _ (by decide) (by decide)]
    rw [tomlLineList, parseTomlLine_pair _ _ (by decide) (by decide)]
    rw [ih]
    rfl

theorem tomlSectionPairs_tail (rs : List DynamicsData) :
    tomlSectionPairs (tomlTLinesOf rs) =
      ([], if rs.isEmpty then [] else tomlTLinesOf rs) := by
  cases rs with
  | nil => rfl
  | cons d rs2 => rfl

theorem tomlSectionPairs_rec (d : DynamicsData) (rest r' : List TomlLine)
    (h : tomlSectionPairs rest = ([], r')) :
    tomlSectionPairs (.pair "key" (.str d.key) :: .pair "_mergePartial" (.str d.mergePartial) ::
      .pair "content_type" (.str d.content_type) :: rest) = (recFields d, r') := by
  rw [tomlSectionPairs]
  simp only []
  rw [tomlSectionPairs]
  simp only []
  rw [tomlSectionPairs]
  simp only []
  rw [h]
  rfl

theorem tomlSectionList_of (rs : List DynamicsData) :
    ∀ fuel, rs.length + 2 ≤ fuel →
    tomlSectionList fuel (tomlTLinesOf rs) =
      some (rs.map (fun d => ("dynamics", recFields d))) := by
  induction rs with
  | nil =>
    intro fuel hf
    obtain ⟨f, rfl⟩ : ∃ f, fuel = f + 2 := ⟨fuel - 2, by omega⟩
    rfl
  | cons d rs ih =>
    intro fuel hf
    obtain ⟨f, rfl⟩ : ∃ f, fuel = f + 1 := ⟨fuel - 1, by omega⟩
    show tomlSectionList (f + 1) (.header "dynamics" :: .pair "key" (.str d.key) ::
      .pair "_mergePartial" (.str d.mergePartial) ::
      .pair "content_type" (.str d.content_type) :: tomlTLinesOf rs) = _
    rw [tomlSectionList]
    rw [tomlSectionPairs_rec d _ _ (by rw [tomlSectionPairs_tail])]
    cases rs with
    | nil =>
      have h0 : tomlSectionList f ([] : List TomlLine) = some [] := by
        obtain ⟨g, rfl⟩ : ∃ g, f = g + 1 := ⟨f - 1, by simp at hf; omega⟩
        rfl
      simp [h0]
    | cons e rs2 =>
      have h1 : tomlSectionList f (tomlTLinesOf (e :: rs2)) =
          some ((e :: rs2).map (fun d => ("dynamics", recFields d))) :=
        ih f (by simp at hf ⊢; omega)
      simp [h1]

theorem addSections_dyn (rs : List DynamicsData) :
    ∀ acc : List JsVal,
    addSections [("dynamics", JsVal.arr acc)]
        (rs.map (fun d => ("dynamics", recFields d))) =
      some [("dynamics", JsVal.arr (acc ++ rs.map (·.toJsVal)))] := by
  induction rs with
  | nil => intro acc; simp [addSections]
  | cons d rs ih =>
    intro acc
    simp only [List.map_cons]
    rw [addSections]
    have ha : addSection [("dynamics", JsVal.arr acc)] "dynamics" (recFields d) =
        some [("dynamics", JsVal.arr (acc ++ [JsVal.obj (recFields d)]))] := by
      rw [addSection]
      simp [List.lookup, replaceField]
    rw [ha]
    simp only []
    rw [ih (acc ++ [JsVal.obj (recFields d)])]
    simp [DynamicsData.toJsVal, recFields]

theorem tomlTLinesOf_length (rs : List DynamicsData) :
    (tomlTLinesOf rs).length = 4 * rs.length + 1 := by
  induction rs with
  | nil => rfl
  | cons d rs ih =>
    simp only [tomlTLinesOf, tomlRecordTLines, List.length_append, List.length_cons, ih,
      List.length_nil, List.length_map]
    omega

theorem tomlParse_records (rs : List DynamicsData) :
    tomlParse (tomlStringify (rs.map (·.toJsVal))) =
      some [("dynamics", .arr (rs.map (·.toJsVal)))] := by
  cases rs with
  | nil => rfl
  | cons d rs =>
    have hcond : (!((d :: rs).map (·.toJsVal)).isEmpty &&
        ((d :: rs).map (·.toJsVal)).all (fun v => v.isObj)) = true := by
      simp only [Bool.and_eq_true, List.all_eq_true]
      refine ⟨by simp, ?_⟩
      intro v hv
      rw [List.mem_map] at hv
      obtain ⟨e, _, rfl⟩ := hv
      rfl
    rw [tomlStringify, if_pos hcond, tomlParse]
    rw [show (String.mk (tomlSectionsText ((d :: rs).map (·.toJsVal)))).data =
        tomlSectionsText ((d :: rs).map (·.toJsVal)) from rfl]
    rw [toml_splitLines, toml_lineList]
    simp only []
    have htop : tomlTop (tomlTLinesOf (d :: rs)) = ([], tomlTLinesOf (d :: rs)) := rfl
    rw [htop]
    simp only []
    rw [tomlSectionList_of (d :: rs) _ (by
      rw [tomlTLinesOf_length]
      simp only [List.length_cons]
      omega)]
    simp only [List.map_cons]
    rw [addSections]
    rw [show addSection [] "dynamics" (recFields d) =
        some [("dynamics", JsVal.arr [JsVal.obj (recFields d)])] from rfl]
    simp only []
    rw [addSections_dyn rs [JsVal.obj (recFields d)]]
    simp [DynamicsData.toJsVal, recFields]

theorem newline_not_mem_yamlPair (k v : String) : '\n' ∉ yamlPair k (.str v) := by
  intro hmem
  simp only [yamlPair, yamlScalar] at hmem
  rcases List.mem_append.mp hmem with h | h
  · exact newline_not_mem_quoteStr k h
  · simp only [List.mem_cons] at h
    rcases h with h | h | h
    · exact absurd h (by decide)
    · exact absurd h (by decide)
    · exact newline_not_mem_quoteStr v h

/-- The three text lines one record contributes to the YAML registry. -/
def yamlRecordLines (d : DynamicsData) : List (List Char) :=
  [('-' :: ' ' :: yamlPair "key" (.str d.key)),
   (' ' :: ' ' :: yamlPair "_mergePartial" (.str d.mergePartial)),
   (' ' :: ' ' :: yamlPair "content_type" (.str d.content_type))]

/-- The text lines of the whole YAML registry body. -/
def yamlLinesOf : List DynamicsData → List (List Char)
  | [] => [[]]
  | d :: rs => yamlRecordLines d ++ yamlLinesOf rs

/-- The three classified lines one record contributes. -/
def yamlRecordYLines (d : DynamicsData) : List YamlLine :=
  [.item "key" (.str d.key), .cont "_mergePartial" (.str d.mergePartial),
   .cont "content_type" (.str d.content_type)]

/-- The classified lines of the whole YAML registry body. -/
def yamlYLinesOf : List DynamicsData → List YamlLine
  | [] => [.blank]
  | d :: rs => yamlRecordYLines d ++ yamlYLinesOf rs

theorem yaml_splitLines (rs : List DynamicsData) :
    splitLines (yamlItemsText (rs.map (·.toJsVal))) = yamlLinesOf rs := by
  induction rs with
  | nil => rfl
  | cons d rs ih =>
    have he : yamlItemsText ((d :: rs).map (·.toJsVal)) =
        ('-' :: ' ' :: yamlPair "key" (.str d.key)) ++ '\n' ::
          ((' ' :: ' ' :: yamlPair "_mergePartial" (.str d.mergePartial)) ++ '\n' ::
            ((' ' :: ' ' :: yamlPair "content_type" (.str d.content_type)) ++ '\n' ::
              yamlItemsText (rs.map (·.toJsVal)))) := by
      simp [yamlItemsText, yamlItem, DynamicsData.toJsVal, yamlMoreFields]
    have hnl1 : '\n' ∉ ('-' :: ' ' :: yamlPair "key" (.str d.key)) := by
      intro h
      rcases List.mem_cons.mp h with h | h
      · exact absurd h (by decide)
      rcases List.mem_cons.mp h with h | h
      · exact absurd h (by decide)
      · exact newline_not_mem_yamlPair _ _ h
    have hnl2 : '\n' ∉ (' ' :: ' ' :: yamlPair "_mergePartial" (.str d.mergePartial)) := by
      intro h
      rcases List.mem_cons.mp h with h | h
      · exact absurd h (by decide)
      rcases List.mem_cons.mp h with h | h
      · exact absurd h (by decide)
      · exact newline_not_mem_yamlPair _ _ h
    have hnl3 : '\n' ∉ (' ' :: ' ' :: yamlPair "content_type" (.str d.content_type)) := by
      intro h
      rcases List.mem_cons.mp h with h | h
      · exact absurd h (by decide)
      rcases List.mem_cons.mp h with h | h
      · exact absurd h (by decide)
      · exact newline_not_mem_yamlPair _ _ h
    rw [he, splitLines_line _ _ hnl1, splitLines_line _ _ hnl2, splitLines_line _ _ hnl3, ih]
    rfl

theorem yamlKV_pair (k v : String) : yamlKV (yamlPair k (.str v)) = some (k, .str v) := by
  have he : yamlPair k (.str v) = '"' :: (escStr k.data ++ '"' ::
      (':' :: ' ' :: quoteStr v)) := by
    simp [yamlPair, yamlScalar, quoteStr]
  rw [he, yamlKV]
  simp only [if_pos rfl, scanQuotedF_quote]
  have ht : (':' :: ' ' :: quoteStr v).take 2 = [':', ' '] := rfl
  have hd : (':' :: ' ' :: quoteStr v).drop 2 = quoteStr v := rfl
  simp [ht, hd, scalarTok_quoteStr]

theorem parseYamlLine_item (k v : String) :
    parseYamlLine ('-' :: ' ' :: yamlPair k (.str v)) = .item k (.str v) := by
  rw [parseYamlLine]
  rw [if_neg (by
    intro hcontra
    simp only [List.all_cons, Bool.and_eq_true] at hcontra
    exact absurd hcontra.1 (by decide))]
  rw [if_pos (show List.take 2 ('-' :: ' ' :: yamlPair k (.str v)) = ['-', ' '] from rfl)]
  rw [show ('-' :: ' ' :: yamlPair k (.str v)).drop 2 = yamlPair k (.str v) from rfl]
  rw [yamlKV_pair]

theorem parseYamlLine_cont (k v : String) :
    parseYamlLine (' ' :: ' ' :: yamlPair k (.str v)) = .cont k (.str v) := by
  rw [parseYamlLine]
  rw [if_neg (by
    intro hcontra
    simp only [List.all_cons, Bool.and_eq_true] at hcontra
    have h3 := hcontra.2.2
    have hq : '"' ∈ yamlPair k (.str v) := by
      simp [yamlPair, quoteStr]
    rw [List.all_eq_true] at h3
    have := h3 '"' hq
    exact absurd this (by decide))]
  rw [if_neg (by
    intro hcontra
    simp only [List.take_succ_cons, List.cons.injEq] at hcontra
    exact absurd hcontra.1 (by decide))]
  rw [if_pos (show List.take 2 (' ' :: ' ' :: yamlPair k (.str v)) = [' ', ' '] from rfl)]
  rw [show (' ' :: ' ' :: yamlPair k (.str v)).drop 2 = yamlPair k (.str v) from rfl]
  rw [yamlKV_pair]

theorem yaml_lineList (rs : List DynamicsData) :
    yamlLineList (yamlLinesOf rs) = some (yamlYLinesOf rs) := by
  induction rs with
  | nil =>
    show yamlLineList [[]] = some [.blank]
    rfl
  | cons d rs ih =>
    show yamlLineList (yamlRecordLines d ++ yamlLinesOf rs) = _
    rw [yamlRecordLines]
    simp only [List.cons_append, List.nil_append]
    rw [yamlLineList, parseYamlLine_item]
    rw [yamlLineList, parseYamlLine_cont]
    rw [yamlLineList, parseYamlLine_cont]
    rw [ih]
    rfl

theorem yamlYLinesOf_length (rs : List DynamicsData) :
    (yamlYLinesOf rs).length = 3 * rs.length + 1 := by
  induction rs with
  | nil => rfl
  | cons d rs ih =>
    simp only [yamlYLinesOf, yamlRecordYLines, List.length_append, List.length_cons,
      List.length_nil, ih]
    omega

theorem yamlItemsParse_of (rs : List DynamicsData) :
    ∀ fuel, rs.length + 2 ≤ fuel →
    yamlItemsParse fuel (yamlYLinesOf rs) = some (rs.map (·.toJsVal)) := by
  induction rs with
  | nil =>
    intro fuel hf
    obtain ⟨f, rfl⟩ : ∃ f, fuel = f + 2 := ⟨fuel - 2, by omega⟩
    rfl
  | cons d rs ih =>
    intro fuel hf
    obtain ⟨f, rfl⟩ : ∃ f, fuel = f + 1 := ⟨fuel - 1, by omega⟩
    show yamlItemsParse (f + 1) (.item "key" (.str d.key) ::
      .cont "_mergePartial" (.str d.mergePartial) ::
      .cont "content_type" (.str d.content_type) :: yamlYLinesOf rs) = _
    rw [yamlItemsParse]
    have hconts : yamlConts (.cont "_mergePartial" (.str d.mergePartial) ::
        .cont "content_type" (.str d.content_type) :: yamlYLinesOf rs) =
        ([("_mergePartial", JsVal.str d.mergePartial),
          ("content_type", JsVal.str d.content_type)], yamlYLinesOf rs) := by
      rw [yamlConts]
      simp only []
      rw [yamlConts]
      simp only []
      have : yamlConts (yamlYLinesOf rs) = ([], yamlYLinesOf rs) := by
        cases rs <;> rfl
      rw [this]
    rw [hconts]
    simp only []
    rw [ih f (by simp at hf ⊢; omega)]
    rfl

theorem yamlParse_records (rs : List DynamicsData) :
    yamlParse (yamlStringify (rs.map (·.toJsVal))) =
      some (.arr (rs.map (·.toJsVal))) := by
  cases rs with
  | nil => rfl
  | cons d rs =>
    have he : yamlStringify ((d :: rs).map (·.toJsVal)) =
        ⟨yamlItemsText ((d :: rs).map (·.toJsVal))⟩ := by
      simp [yamlStringify]
    rw [he, yamlParse]
    rw [if_neg (by
      intro hcontra
      have hh : (yamlItemsText ((d :: rs).map (·.toJsVal))).head? = some '-' := by
        simp [yamlItemsText, yamlItem, DynamicsData.toJsVal]
      rcases hcontra with h | h <;>
      · rw [String.ext_iff] at h
        simp only [] at h
        rw [h] at hh
        exact absurd hh (by decide))]
    rw [show (String.mk (yamlItemsText ((d :: rs).map (·.toJsVal)))).data =
        yamlItemsText ((d :: rs).map (·.toJsVal)) from rfl]
    rw [yaml_splitLines, yaml_lineList]
    simp only []
    rw [yamlItemsParse_of (d :: rs) _ (by
      rw [yamlYLinesOf_length]
      simp only [List.length_cons]
      omega)]

theorem trimIsEmpty_stringify_false (ft : FileType) (rs : List DynamicsData) :
    trimIsEmpty (stringifyDynamicsData ft (rs.map (·.toJsVal))) = false := by
  cases ft with
  | yaml =>
    cases rs with
    | nil => rfl
    | cons d rs2 =>
      show trimIsEmpty (yamlStringify ((d :: rs2).map (·.toJsVal))) = false
      rw [show yamlStringify ((d :: rs2).map (·.toJsVal)) =
          ⟨yamlItemsText ((d :: rs2).map (·.toJsVal))⟩ from by simp [yamlStringify]]
      rw [trimIsEmpty]
      exact List.all_eq_false.mpr ⟨'-',
        by simp [yamlItemsText, yamlItem, DynamicsData.toJsVal], by decide⟩
  | toml =>
    cases rs with
    | nil => rfl
    | cons d rs2 =>
      show trimIsEmpty (tomlStringify ((d :: rs2).map (·.toJsVal))) = false
      have hcond : (!((d :: rs2).map (·.toJsVal)).isEmpty &&
          ((d :: rs2).map (·.toJsVal)).all (fun v => v.isObj)) = true := by
        simp only [Bool.and_eq_true, List.all_eq_true]
        refine ⟨by simp, ?_⟩
        intro v hv
        rw [List.mem_map] at hv
        obtain ⟨e, _, rfl⟩ := hv
        rfl
      rw [tomlStringify, if_pos hcond, trimIsEmpty]
      exact List.all_eq_false.mpr ⟨'[',
        by simp [tomlSectionsText, DynamicsData.toJsVal], by decide⟩
  | json =>
    show trimIsEmpty ⟨jsonSer 0 (.arr (rs.map (·.toJsVal)))⟩ = false
    rw [trimIsEmpty]
    refine List.all_eq_false.mpr ⟨'[', ?_, by decide⟩
    cases rs <;> simp [jsonSer]

theorem parseDynamicsFile_roundtrip (ft : FileType) (rs : List DynamicsData) :
    parseDynamicsFile ft (stringifyDynamicsData ft (rs.map (·.toJsVal))) =
      .arr (rs.map (·.toJsVal)) := by
  rw [parseDynamicsFile.eq_def, if_neg (by rw [trimIsEmpty_stringify_false]; simp)]
  cases ft with
  | yaml =>
    show (match yamlParse (yamlStringify (rs.map (·.toJsVal))) with
      | some v => if v.isArr then v else .arr []
      | none => JsVal.arr []) = _
    rw [yamlParse_records]
    rfl
  | toml =>
    show (match tomlParse (tomlStringify (rs.map (·.toJsVal))) with
      | some doc =>
        match doc.lookup "dynamics" with
        | some v => if jsTruthy v then v else .arr []
        | none => JsVal.arr []
      | none => JsVal.arr []) = _
    rw [tomlParse_records]
    rfl
  | json =>
    show (match jsonParse ⟨jsonSer 0 (.arr (rs.map (·.toJsVal)))⟩ with
      | some v => if v.isArr then v else .arr []
      | none => JsVal.arr []) = _
    rw [jsonParse_records]
    rfl

theorem keyMatches_self (d : DynamicsData) : keyMatches d.key d.toJsVal = true := by
  simp [keyMatches, jsKey, DynamicsData.toJsVal, List.lookup]

theorem jsKey_toJsVal (d : DynamicsData) : jsKey d.toJsVal = some (.str d.key) := rfl

theorem recordKeys_nodup_map (rs : List DynamicsData)
    (h : (rs.map DynamicsData.key).Nodup) :
    ((rs.map (·.toJsVal)).map jsKey).Nodup := by
  rw [List.map_map]
  have he : (jsKey ∘ fun d : DynamicsData => d.toJsVal) =
      (fun s => some (JsVal.str s)) ∘ DynamicsData.key := by
    funext d
    rfl
  rw [he, ← List.map_map]
  refine h.map ?_
  intro a b hab
  simpa using hab

/-- Claim C1: key uniqueness is preserved by the merge step of
`updateDynamicsFile`: starting from a registry of records with pairwise
distinct keys, running the merge with the new derived record (for any
answer to the overwrite prompt) yields a sequence whose `key` properties
are still pairwise distinct — an existing record with the same key is
replaced in place or the array is left untouched, and two records with
the same key are never produced. -/
theorem claim_c1_upsert_preserves_key_uniqueness
    (rs : List DynamicsData) (blockName : String) (ow : Bool)
    (hnodup : (rs.map DynamicsData.key).Nodup) :
    (((mergeStep (rs.map (·.toJsVal)) (newDynamicsData blockName).toJsVal
        (newDynamicsData blockName).key ow).2).map jsKey).Nodup := by
  exact mergeStep_nodup _ _ _ _ (jsKey_toJsVal _) (recordKeys_nodup_map rs hnodup)

theorem claim_c1_witness :
    ((([⟨"dynbxold", "old", "old"⟩] : List DynamicsData).map DynamicsData.key).Nodup) ∧
    (((mergeStep (([⟨"dynbxold", "old", "old"⟩] : List DynamicsData).map (·.toJsVal))
        (newDynamicsData "hero_banner").toJsVal
        (newDynamicsData "hero_banner").key true).2).map jsKey).Nodup :=
  ⟨by decide, claim_c1_upsert_preserves_key_uniqueness
    [⟨"dynbxold", "old", "old"⟩] "hero_banner" true (by decide)⟩

/-- Claim C4: idempotence of repeated upsert: with the overwrite prompt
accepted both times, running the merge step twice with the same
identifier gives, after the second run, exactly the sequence the first
run produced (so the record keeps the position it got in the first run,
with outcome `replaced`), and that sequence holds exactly one record
carrying the derived key. -/
theorem claim_c4_upsert_idempotent (rs : List DynamicsData) (blockName : String)
    (hnodup : (rs.map DynamicsData.key).Nodup) :
    mergeStep ((mergeStep (rs.map (·.toJsVal)) (newDynamicsData blockName).toJsVal
        (newDynamicsData blockName).key true).2) (newDynamicsData blockName).toJsVal
      (newDynamicsData blockName).key true =
      (.replaced, (mergeStep (rs.map (·.toJsVal)) (newDynamicsData blockName).toJsVal
        (newDynamicsData blockName).key true).2) ∧
    ((mergeStep (rs.map (·.toJsVal)) (newDynamicsData blockName).toJsVal
        (newDynamicsData blockName).key true).2).countP
      (keyMatches (newDynamicsData blockName).key) = 1 := by
  refine ⟨mergeStep_idem _ _ _ (keyMatches_self _), ?_⟩
  exact mergeStep_count _ _ _ (keyMatches_self _) (recordKeys_nodup_map rs hnodup)

theorem claim_c4_witness :
    ((([⟨"dynbxherobanner", "hero_banner", "hero_banner"⟩] : List DynamicsData).map
        DynamicsData.key).Nodup) ∧
    (mergeStep ((mergeStep (([⟨"dynbxherobanner", "hero_banner", "hero_banner"⟩] :
          List DynamicsData).map (·.toJsVal)) (newDynamicsData "hero_banner").toJsVal
        (newDynamicsData "hero_banner").key true).2) (newDynamicsData "hero_banner").toJsVal
      (newDynamicsData "hero_banner").key true =
      (.replaced, (mergeStep (([⟨"dynbxherobanner", "hero_banner", "hero_banner"⟩] :
          List DynamicsData).map (·.toJsVal)) (newDynamicsData "hero_banner").toJsVal
        (newDynamicsData "hero_banner").key true).2) ∧
    ((mergeStep (([⟨"dynbxherobanner", "hero_banner", "hero_banner"⟩] :
          List DynamicsData).map (·.toJsVal)) (newDynamicsData "hero_banner").toJsVal
        (newDynamicsData "hero_banner").key true).2).countP
      (keyMatches (newDynamicsData "hero_banner").key) = 1) :=
  ⟨by decide, claim_c4_upsert_idempotent
    [⟨"dynbxherobanner", "hero_banner", "hero_banner"⟩] "hero_banner" (by decide)⟩

/-- Claim C6: frame property of the merge step: when the new record's key
is not found, the merge appends the record at the end, leaving every
prior record with its value and position (the result is literally
`xs ++ [nd]`); when the key is found at index `i` and the overwrite is
accepted, only index `i` changes: the length is unchanged and every
other index holds its old value. -/
theorem claim_c6_merge_frame (rs : List DynamicsData) (blockName : String) (ow : Bool) :
    ((rs.map (·.toJsVal)).findIdx? (keyMatches (newDynamicsData blockName).key) = none →
      mergeStep (rs.map (·.toJsVal)) (newDynamicsData blockName).toJsVal
        (newDynamicsData blockName).key ow =
        (.inserted, rs.map (·.toJsVal) ++ [(newDynamicsData blockName).toJsVal])) ∧
    (∀ i, (rs.map (·.toJsVal)).findIdx? (keyMatches (newDynamicsData blockName).key) =
        some i →
      mergeStep (rs.map (·.toJsVal)) (newDynamicsData blockName).toJsVal
        (newDynamicsData blockName).key true =
        (.replaced, (rs.map (·.toJsVal)).set i (newDynamicsData blockName).toJsVal) ∧
      ((rs.map (·.toJsVal)).set i (newDynamicsData blockName).toJsVal).length =
        (rs.map (·.toJsVal)).length ∧
      ∀ j, j ≠ i →
        ((rs.map (·.toJsVal)).set i (newDynamicsData blockName).toJsVal)[j]? =
          (rs.map (·.toJsVal))[j]?) := by
  exact ⟨mergeStep_not_found _ _ _ ow, fun i hi => mergeStep_found _ _ _ i hi⟩

theorem claim_c6_witness :
    ((([⟨"dynbxother", "o", "o"⟩] : List DynamicsData).map (·.toJsVal)).findIdx?
        (keyMatches (newDynamicsData "hero_banner").key) = none ∧
      mergeStep (([⟨"dynbxother", "o", "o"⟩] : List DynamicsData).map (·.toJsVal))
        (newDynamicsData "hero_banner").toJsVal (newDynamicsData "hero_banner").key true =
        (.inserted, ([⟨"dynbxother", "o", "o"⟩] : List DynamicsData).map (·.toJsVal) ++
          [(newDynamicsData "hero_banner").toJsVal])) ∧
    ((([⟨"dynbxherobanner", "h", "h"⟩] : List DynamicsData).map (·.toJsVal)).findIdx?
        (keyMatches (newDynamicsData "hero_banner").key) = some 0 ∧
      mergeStep (([⟨"dynbxherobanner", "h", "h"⟩] : List DynamicsData).map (·.toJsVal))
        (newDynamicsData "hero_banner").toJsVal (newDynamicsData "hero_banner").key true =
        (.replaced, (([⟨"dynbxherobanner", "h", "h"⟩] : List DynamicsData).map
          (·.toJsVal)).set 0 (newDynamicsData "hero_banner").toJsVal)) := by
  constructor
  · have hfind : (([⟨"dynbxother", "o", "o"⟩] : List DynamicsData).map
        (·.toJsVal)).findIdx? (keyMatches (newDynamicsData "hero_banner").key) = none := by
      decide
    exact ⟨hfind, ((claim_c6_merge_frame [⟨"dynbxother", "o", "o"⟩] "hero_banner" true).1
      hfind)⟩
  · have hfind : (([⟨"dynbxherobanner", "h", "h"⟩] : List DynamicsData).map
        (·.toJsVal)).findIdx? (keyMatches (newDynamicsData "hero_banner").key) =
        some 0 := by decide
    exact ⟨hfind, ((claim_c6_merge_frame [⟨"dynbxherobanner", "h", "h"⟩] "hero_banner"
      true).2 0 hfind).1⟩

/-- The underlying format parser invoked inside the `try` of
`parseDynamicsFile`, before the branch-specific result handling: the
`yaml`/`json` parsers directly, and the `toml` parser's top-level table
as an object value. -/
def rawParse : FileType → String → Option JsVal
  | .yaml, s => yamlParse s
  | .toml, s => (tomlParse s).map .obj
  | .json, s => jsonParse s

/-- Claim C2: for every identifier matching `^[A-Za-z_][A-Za-z0-9_]*$`,
running the registry update on a nonexistent registry (creation
confirmed) or on an empty registry file writes a registry that holds
exactly the one derived record, whose key is `"dynbx"` followed by the
identifier with all underscores removed, whose `_mergePartial` and
`content_type` both equal the identifier. -/
theorem claim_c2_upsert_fresh_registry (ft : FileType) (id : String) (ow : Bool)
    (hid : isValidIdentifier id = true) :
    updateDynamicsFile ft none true ow id =
      some ⟨.created, some (stringifyDynamicsData ft [(newDynamicsData id).toJsVal])⟩ ∧
    (∀ s, trimIsEmpty s = true →
      updateDynamicsFile ft (some s) true ow id =
        some ⟨.inserted, some (stringifyDynamicsData ft [(newDynamicsData id).toJsVal])⟩) ∧
    parseDynamicsFile ft (stringifyDynamicsData ft [(newDynamicsData id).toJsVal]) =
      .arr [(newDynamicsData id).toJsVal] ∧
    (newDynamicsData id).key = "dynbx" ++ blockNameWithoutUnderscores id ∧
    (newDynamicsData id).mergePartial = id ∧
    (newDynamicsData id).content_type = id := by
  refine ⟨rfl, ?_, ?_, rfl, rfl, rfl⟩
  · intro s hs
    rw [updateDynamicsFile.eq_def]
    simp only []
    rw [parseDynamicsFile.eq_def, if_pos hs]
    rfl
  · have h := parseDynamicsFile_roundtrip ft [newDynamicsData id]
    simpa using h

theorem claim_c2_witness :
    isValidIdentifier "hero_banner" = true ∧
    trimIsEmpty "  " = true ∧
    updateDynamicsFile .json none true false "hero_banner" =
      some ⟨.created, some (stringifyDynamicsData .json
        [(newDynamicsData "hero_banner").toJsVal])⟩ ∧
    updateDynamicsFile .json (some "  ") true false "hero_banner" =
      some ⟨.inserted, some (stringifyDynamicsData .json
        [(newDynamicsData "hero_banner").toJsVal])⟩ ∧
    parseDynamicsFile .json (stringifyDynamicsData .json
        [(newDynamicsData "hero_banner").toJsVal]) =
      .arr [(newDynamicsData "hero_banner").toJsVal] ∧
    (newDynamicsData "hero_banner").key = "dynbxherobanner" := by
  have h := claim_c2_upsert_fresh_registry .json "hero_banner" false (by decide)
  exact ⟨by decide, by decide, h.1, h.2.1 "  " (by decide), h.2.2.1, rfl⟩

/-- Claim C5: declining the overwrite confirmation is atomic: when the
decoded registry contains an entry with the new record's key and the
overwrite prompt is declined, `updateDynamicsFile` returns before any
write, with outcome `skipped` and the registry file's content exactly as
it was. -/
theorem claim_c5_decline_leaves_file_unchanged (ft : FileType)
    (content blockName : String) (c : Bool) (xs : List JsVal) (i : Nat)
    (hparse : parseDynamicsFile ft content = .arr xs)
    (hfound : xs.findIdx? (keyMatches (newDynamicsData blockName).key) = some i) :
    updateDynamicsFile ft (some content) c false blockName =
      some ⟨.skipped, some content⟩ := by
  rw [updateDynamicsFile.eq_def]
  simp only []
  rw [hparse]
  have hm : mergeStep xs (newDynamicsData blockName).toJsVal
      (newDynamicsData blockName).key false = (.skipped, xs) := by
    unfold mergeStep
    rw [hfound]
    simp
  simp only [hm]
  rfl

theorem claim_c5_witness :
    parseDynamicsFile .json (stringifyDynamicsData .json
        [(newDynamicsData "hero_banner").toJsVal]) =
      .arr [(newDynamicsData "hero_banner").toJsVal] ∧
    ([(newDynamicsData "hero_banner").toJsVal].findIdx?
        (keyMatches (newDynamicsData "hero_banner").key) = some 0) ∧
    updateDynamicsFile .json (some (stringifyDynamicsData .json
        [(newDynamicsData "hero_banner").toJsVal])) true false "hero_banner" =
      some ⟨.skipped, some (stringifyDynamicsData .json
        [(newDynamicsData "hero_banner").toJsVal])⟩ := by
  have hparse : parseDynamicsFile .json (stringifyDynamicsData .json
      [(newDynamicsData "hero_banner").toJsVal]) =
      .arr [(newDynamicsData "hero_banner").toJsVal] := by
    have h := parseDynamicsFile_roundtrip .json [newDynamicsData "hero_banner"]
    simpa using h
  have hfound : [(newDynamicsData "hero_banner").toJsVal].findIdx?
      (keyMatches (newDynamicsData "hero_banner").key) = some 0 := by decide
  exact ⟨hparse, hfound,
    claim_c5_decline_leaves_file_unchanged .json _ "hero_banner" true _ 0 hparse hfound⟩

/-- Claim C7: tolerant decode: for every format, empty or whitespace-only
content decodes to the empty sequence, and content on which the format's
parser fails is caught and also decodes to the empty sequence;
`parseDynamicsFile` is a total function, so no exception escapes it. -/
theorem claim_c7_tolerant_decode (ft : FileType) (content : String) :
    (trimIsEmpty content = true → parseDynamicsFile ft content = .arr []) ∧
    (rawParse ft content = none → parseDynamicsFile ft content = .arr []) := by
  constructor
  · intro h
    rw [parseDynamicsFile.eq_def, if_pos h]
  · intro h
    rw [parseDynamicsFile.eq_def]
    by_cases ht : trimIsEmpty content = true
    · rw [if_pos ht]
    · rw [if_neg ht]
      cases ft with
      | yaml =>
        have hy : yamlParse content = none := h
        simp only [hy]
      | toml =>
        have ht2 : tomlParse content = none := by
          have := h
          rw [rawParse] at this
          exact Option.map_eq_none'.mp this
        simp only [ht2]
      | json =>
        have hj : jsonParse content = none := h
        simp only [hj]

theorem claim_c7_witness :
    trimIsEmpty " " = true ∧
    parseDynamicsFile .json " " = .arr [] ∧
    rawParse .json "[whoops" = none ∧
    parseDynamicsFile .json "[whoops" = .arr [] := by
  have h1 := (claim_c7_tolerant_decode .json " ").1 (by decide)
  have h2 : rawParse .json "[whoops" = none := rfl
  exact ⟨by decide, h1, h2, (claim_c7_tolerant_decode .json "[whoops").2 h2⟩

/-- Claim C8: format auto-detection probes the registry files under
`quiqr/model/includes` in the fixed order `dynamics.toml`, then
`dynamics.json`, then `dynamics.yaml`, and defaults to `yaml` when none
of the three exists. -/
theorem claim_c8_detect_priority (ex : String → Bool) :
    (ex "quiqr/model/includes/dynamics.toml" = true → detectFileType ex = .toml) ∧
    (ex "quiqr/model/includes/dynamics.toml" = false →
      ex "quiqr/model/includes/dynamics.json" = true → detectFileType ex = .json) ∧
    (ex "quiqr/model/includes/dynamics.toml" = false →
      ex "quiqr/model/includes/dynamics.json" = false →
      ex "quiqr/model/includes/dynamics.yaml" = true → detectFileType ex = .yaml) ∧
    (ex "quiqr/model/includes/dynamics.toml" = false →
      ex "quiqr/model/includes/dynamics.json" = false →
      ex "quiqr/model/includes/dynamics.yaml" = false → detectFileType ex = .yaml) := by
  refine ⟨fun h1 => ?_, fun h1 h2 => ?_, fun h1 h2 h3 => ?_, fun h1 h2 h3 => ?_⟩ <;>
    simp [detectFileType, h1] <;> simp [h2] <;> simp [h3]

theorem claim_c8_witness :
    detectFileType (fun p => p = "quiqr/model/includes/dynamics.toml") = .toml ∧
    detectFileType (fun p => p = "quiqr/model/includes/dynamics.json") = .json ∧
    detectFileType (fun p => p = "quiqr/model/includes/dynamics.yaml") = .yaml ∧
    detectFileType (fun _ => false) = .yaml := by
  refine ⟨?_, ?_, ?_, ?_⟩
  · exact (claim_c8_detect_priority _).1 (by decide)
  · exact (claim_c8_detect_priority _).2.1 (by decide) (by decide)
  · exact (claim_c8_detect_priority _).2.2.1 (by decide) (by decide) (by decide)
  · exact (claim_c8_detect_priority _).2.2.2 rfl rfl rfl

/-- Claim C10: the `toml` branch of `parseDynamicsFile` returns the empty
sequence exactly when the parsed document's `dynamics` field is absent
or falsy; a present truthy value — a sequence or not, e.g. a string — is
returned unchanged, so the not-a-sequence-to-empty coercion of the
`yaml`/`json` branches does not apply to `toml`. -/
theorem claim_c10_toml_truthy_dynamics (content : String) :
    (∀ doc v, trimIsEmpty content = false → tomlParse content = some doc →
      doc.lookup "dynamics" = some v → jsTruthy v = true →
      parseDynamicsFile .toml content = v) ∧
    (∀ doc, tomlParse content = some doc → doc.lookup "dynamics" = none →
      parseDynamicsFile .toml content = .arr []) ∧
    (∀ doc v, tomlParse content = some doc → doc.lookup "dynamics" = some v →
      jsTruthy v = false → parseDynamicsFile .toml content = .arr []) := by
  refine ⟨fun doc v ht hp hl htr => ?_, fun doc hp hl => ?_, fun doc v hp hl htr => ?_⟩
  · rw [parseDynamicsFile.eq_def, if_neg (by rw [ht]; simp)]
    simp only [hp, hl, htr, if_true]
  · rw [parseDynamicsFile.eq_def]
    by_cases ht : trimIsEmpty content = true
    · rw [if_pos ht]
    · rw [if_neg ht]
      simp only [hp, hl]
  · rw [parseDynamicsFile.eq_def]
    by_cases ht : trimIsEmpty content = true
    · rw [if_pos ht]
    · rw [if_neg ht]
      simp only [hp, hl, htr]
      simp

theorem claim_c10_witness :
    trimIsEmpty "dynamics = \"hello\"" = false ∧
    tomlParse "dynamics = \"hello\"" = some [("dynamics", .str "hello")] ∧
    ([("dynamics", JsVal.str "hello")].lookup "dynamics" = some (.str "hello")) ∧
    jsTruthy (.str "hello") = true ∧
    (JsVal.str "hello").isArr = false ∧
    parseDynamicsFile .toml "dynamics = \"hello\"" = .str "hello" := by
  have hp : tomlParse "dynamics = \"hello\"" = some [("dynamics", .str "hello")] := rfl
  refine ⟨by decide, hp, rfl, rfl, rfl, ?_⟩
  exact (claim_c10_toml_truthy_dynamics "dynamics = \"hello\"").1
    [("dynamics", .str "hello")] (.str "hello") (by decide) hp rfl rfl

/-- Claim C3: round-trip law: for each of the three formats and every
sequence of records, decoding the encoding gives the sequence back:
`parseDynamicsFile` of `stringifyDynamicsData` of a record array is that
record array. -/
theorem claim_c3_codec_roundtrip (ft : FileType) (rs : List DynamicsData) :
    parseDynamicsFile ft (stringifyDynamicsData ft (rs.map (·.toJsVal))) =
      .arr (rs.map (·.toJsVal)) :=
  parseDynamicsFile_roundtrip ft rs

/-- Claim C9: end-to-end scenario for identifier `hero_banner` with
format `json` on an empty project, all prompts accepted: the content
file `quiqr/model/partials/hero_banner.json` holds one empty field
template; the registry `quiqr/model/includes/dynamics.json` holds
exactly the single record with key `dynbxherobanner`, `_mergePartial`
and `content_type` equal to `hero_banner`; and the HTML template at
`themes/<theme>/layouts/partials/content_blocks/hero-banner.html`
contains a `div` with class `hero-banner-block`. -/
theorem claim_c9_hero_banner_scenario (theme : String) :
    contentFilePath "hero_banner" .json = "quiqr/model/partials/hero_banner.json" ∧
    formatContentAsJson contentData =
      "\x7b\n  \"fields\": [\n    \x7b\n      \"key\": \"\",\n      \"title\": \"\",\n      \"type\": \"\"\n    \x7d\n  ]\n\x7d" ∧
    dynamicsFilePath .json = "quiqr/model/includes/dynamics.json" ∧
    updateDynamicsFile .json none true false "hero_banner" =
      some ⟨.created, some
        "[\n  \x7b\n    \"key\": \"dynbxherobanner\",\n    \"_mergePartial\": \"hero_banner\",\n    \"content_type\": \"hero_banner\"\n  \x7d\n]"⟩ ∧
    parseDynamicsFile .json
        "[\n  \x7b\n    \"key\": \"dynbxherobanner\",\n    \"_mergePartial\": \"hero_banner\",\n    \"content_type\": \"hero_banner\"\n  \x7d\n]" =
      .arr [(newDynamicsData "hero_banner").toJsVal] ∧
    htmlFilePath theme "hero_banner" =
      "themes/" ++ theme ++ "/layouts/partials/content_blocks/hero-banner.html" ∧
    List.IsInfix ("<div class=\"hero-banner-block\">").data
      (htmlContent "hero_banner").data := by
  refine ⟨rfl, rfl, rfl, rfl, ?_, ?_, ?_⟩
  · have h := parseDynamicsFile_roundtrip .json [newDynamicsData "hero_banner"]
    have he : stringifyDynamicsData .json
        (([newDynamicsData "hero_banner"]).map (·.toJsVal)) =
        "[\n  \x7b\n    \"key\": \"dynbxherobanner\",\n    \"_mergePartial\": \"hero_banner\",\n    \"content_type\": \"hero_banner\"\n  \x7d\n]" := rfl
    rw [he] at h
    simpa using h
  · apply String.ext
    simp only [htmlFilePath, String.data_append]
    have hd : (blockNameWithDashes "hero_banner").data =
        ['h', 'e', 'r', 'o', '-', 'b', 'a', 'n', 'n', 'e', 'r'] := rfl
    simp [hd, List.append_assoc]
  · exact ⟨("<!-- hero_banner block template -->\n  ").data,
      ("\n    <!-- Add your hero_banner block content here -->\n  </div>\n  ").data, rfl⟩

end Scaffold
